import Mathlib

/-!
Verification of the slotted-page heap-file engine and the schema-driven
binary record codec of `alltp.py`.

Modelling conventions (shallow embedding):
* Python `bytes` values are `List Nat`; real byte sequences have every
  element below 256, which is carried as a hypothesis where it matters.
* A page is a `List Nat` of length 4096; `_read_footer`'s dynamic length
  check (`ValueError` on a page that is not PAGE_SIZE bytes) is carried as
  the hypothesis `p.length = 4096` in theorems, since every call site in
  the source passes pages obtained from `read_page`, which guarantees it.
* `struct.pack(">H", v)` / unpack are `toU16` / `readU16`; the pack
  overflow error cannot fire at any reachable call site (proved where
  needed), so `toU16` truncates with `% 256` like the wire format.
* Fallible operations return `Option`: `none` stands for the Python
  exception (`ValueError`, i.e. CapacityError / FormatError, `IndexError`,
  `KeyError`) escaping the modelled function.
* The heap file on storage is `Option (List Nat)`: `none` means the file
  does not exist, `some data` gives its raw bytes.  `read_page`,
  `write_page` and `append_page` are the byte-level operations of the
  source; their PAGE_SIZE checks hold at every modelled call site.
* A Python `str` is modelled by its UTF-8 byte encoding (`List Nat`):
  `s.encode("utf-8")` is the identity and `.decode("utf-8")` is the
  identity on those bytes, which is exact for the round-trip claims
  because UTF-8 encoding is injective.
* A Python `float` that is exactly representable in IEEE-754 single
  precision is modelled by its 32-bit pattern (a `Nat` below 2^32):
  `struct.pack(">f")` emits precisely these four big-endian bytes for such
  a value and `struct.unpack(">f")` returns the same value, so the codec
  claims are bit-exact in this representation.
-/

/-- PAGE_SIZE from the source. -/
def PAGE_SIZE : Nat := 4096

/-- FOOTER_SIZE from the source. -/
def FOOTER_SIZE : Nat := 4

/-- SLOT_ENTRY_SIZE from the source. -/
def SLOT_ENTRY_SIZE : Nat := 4

/-- Byte `i` of a byte string (0 when out of range; all modelled reads are
in range, with bounds carried by the surrounding proofs). -/
def byteAt (p : List Nat) (i : Nat) : Nat := p.getD i 0

/-- `struct.unpack(">H", p[i:i+2])`: big-endian 16-bit read. -/
def readU16 (p : List Nat) (i : Nat) : Nat := 256 * byteAt p i + byteAt p (i + 1)

/-- `struct.pack(">H", v)`: big-endian 16-bit write. -/
def toU16 (v : Nat) : List Nat := [v / 256 % 256, v % 256]

/-- Python bytearray slice assignment `p[pos:pos+len(d)] = d`. -/
def setBytes (p : List Nat) (pos : Nat) (d : List Nat) : List Nat :=
  p.take pos ++ d ++ p.drop (pos + d.length)

/-- First component of `_read_footer`: the slot count stored at bytes
4092-4093. -/
def slotCount (p : List Nat) : Nat := readU16 p (PAGE_SIZE - FOOTER_SIZE)

/-- Second component of `_read_footer`: the free offset stored at bytes
4094-4095. -/
def freeOff (p : List Nat) : Nat := readU16 p (PAGE_SIZE - 2)

/-- `_write_footer` from the source. -/
def write_footer (p : List Nat) (sc fo : Nat) : List Nat :=
  setBytes p (PAGE_SIZE - FOOTER_SIZE) (toU16 sc ++ toU16 fo)

/-- `_slot_pos` from the source. -/
def slot_pos (i : Nat) : Nat := PAGE_SIZE - FOOTER_SIZE - (i + 1) * SLOT_ENTRY_SIZE

/-- Offset half of `_read_slot`. -/
def slotOffset (p : List Nat) (i : Nat) : Nat := readU16 p (slot_pos i)

/-- Length half of `_read_slot`. -/
def slotLength (p : List Nat) (i : Nat) : Nat := readU16 p (slot_pos i + 2)

/-- `_write_slot` from the source. -/
def write_slot (p : List Nat) (i off len : Nat) : List Nat :=
  setBytes p (slot_pos i) (toU16 off ++ toU16 len)

/-- `initialize_empty_page` from the source (renamed): a zeroed buffer
with footer `(0, 0)`. -/
def init_empty_page : List Nat := write_footer (List.replicate PAGE_SIZE 0) 0 0

/-- `free_space_in_page` from the source; an `Int` because the Python
subtraction can be negative on a corrupt page. -/
def free_space_in_page (p : List Nat) : Int :=
  (PAGE_SIZE : Int) - FOOTER_SIZE - slotCount p * SLOT_ENTRY_SIZE - freeOff p

/-- `insert_record_into_page` from the source; `none` is the
`ValueError("Not enough space in page")` (CapacityError). -/
def insert_record_into_page (p record : List Nat) : Option (List Nat × Nat) :=
  if free_space_in_page p < (record.length + SLOT_ENTRY_SIZE : Int) then none
  else
    let pg1 := setBytes p (freeOff p) record
    let pg2 := write_slot pg1 (slotCount p) (freeOff p) record.length
    let pg3 := write_footer pg2 (slotCount p + 1) (freeOff p + record.length)
    some (pg3, slotCount p)

/-- The record slice `page[offset:offset+length]` for slot `i`. -/
def recordAt (p : List Nat) (i : Nat) : List Nat :=
  (p.drop (slotOffset p i)).take (slotLength p i)

/-- `get_record_from_page` from the source; `none` is the `IndexError`
(RangeError) of `_read_slot`. -/
def get_record_from_page (p : List Nat) (i : Nat) : Option (List Nat) :=
  if i < slotCount p then some (recordAt p i) else none

/-- `read_page` from the source, on the file's raw bytes. -/
def read_page (data : List Nat) (n : Nat) : List Nat :=
  (data.drop (n * PAGE_SIZE)).take PAGE_SIZE

/-- `write_page` from the source, on the file's raw bytes. -/
def write_page (data : List Nat) (n : Nat) (pg : List Nat) : List Nat :=
  data.take (n * PAGE_SIZE) ++ pg ++ data.drop (n * PAGE_SIZE + PAGE_SIZE)

/-- `append_page` from the source. -/
def append_page (data pg : List Nat) : List Nat := data ++ pg

/-- The `for p in range(num_pages)` loop of `insert_record`: try pages
`start, start+1, ...` (`n` of them); a `ValueError` from
`insert_record_into_page` is caught and the next page is tried. -/
def tryPages (data record : List Nat) : Nat → Nat → Option (List Nat × Nat × Nat)
  | _, 0 => none
  | p, n + 1 =>
    match insert_record_into_page (read_page data p) record with
    | some (pg, slot) => some (write_page data p pg, p, slot)
    | none => tryPages data record (p + 1) n

/-- `insert_record` from the source.  The state of the heap file is
`none` (missing) or `some data` (raw bytes).  Returns the new file bytes
with the `(page_number, slot_index)` pair; `none` is the uncaught
`ValueError` raised when the record does not fit even a fresh page. -/
def insert_record (fs : Option (List Nat)) (record : List Nat) :
    Option (List Nat × Nat × Nat) :=
  let data := match fs with
    | none => init_empty_page
    | some d => if d.length = 0 then init_empty_page else d
  let np := data.length / PAGE_SIZE
  match tryPages data record 0 np with
  | some out => some out
  | none =>
    match insert_record_into_page init_empty_page record with
    | some (pg, slot) => some (append_page data pg, np, slot)
    | none => none

/-- The inner `for si in range(slot_count)` loop of
`get_all_raw_records`. -/
def pageTriples (p : Nat) (pg : List Nat) : List (Nat × Nat × List Nat) :=
  (List.range (slotCount pg)).map (fun si => (p, si, recordAt pg si))

/-- `get_all_raw_records` from the source. -/
def get_all_raw_records (fs : Option (List Nat)) : List (Nat × Nat × List Nat) :=
  match fs with
  | none => []
  | some data =>
    if data.length = 0 then []
    else ((List.range (data.length / PAGE_SIZE)).map
      (fun p => pageTriples p (read_page data p))).flatten

/-- `struct.pack(">i" / ">f")` byte layout: 4 big-endian bytes. -/
def tobe4 (w : Nat) : List Nat :=
  [w / 16777216 % 256, w / 65536 % 256, w / 256 % 256, w % 256]

/-- Big-endian 32-bit read of a 4-byte string. -/
def frombe4 (b : List Nat) : Nat :=
  ((byteAt b 0 * 256 + byteAt b 1) * 256 + byteAt b 2) * 256 + byteAt b 3

/-- `_pack_int` from the source; `none` is the `struct.error` raised for a
value outside the signed 32-bit range, and in-range negatives are stored
in two's complement. -/
def _pack_int (i : Int) : Option (List Nat) :=
  if -2147483648 ≤ i ∧ i < 2147483648 then some (tobe4 (i % 4294967296).toNat)
  else none

/-- `_unpack_int` from the source; `none` is the FormatError for input
that is not exactly 4 bytes. -/
def _unpack_int (b : List Nat) : Option Int :=
  if b.length = 4 then
    some (if frombe4 b < 2147483648 then (frombe4 b : Int)
          else (frombe4 b : Int) - 4294967296)
  else none

/-- `_pack_float` from the source, on the single-precision bit pattern of
the value (see the header comment). -/
def _pack_float (w : Nat) : List Nat := tobe4 (w % 4294967296)

/-- `_unpack_float` from the source, returning the bit pattern; `none` is
the FormatError for input that is not exactly 4 bytes. -/
def _unpack_float (b : List Nat) : Option Nat :=
  if b.length = 4 then some (frombe4 b) else none

/-- `_pack_char` from the source: truncate the UTF-8 bytes to `n`, pad
with zero bytes to exactly `n`. -/
def _pack_char (s : List Nat) (n : Nat) : List Nat :=
  s.take n ++ List.replicate (n - s.length) 0

/-- Python `bytes.rstrip(b'\x00')`. -/
def rstripZeros (s : List Nat) : List Nat :=
  (s.reverse.dropWhile (fun b => b == 0)).reverse

/-- `_unpack_char` from the source: strip trailing zero bytes (the UTF-8
decode is the identity in the byte model). -/
def _unpack_char (b : List Nat) : List Nat := rstripZeros b

/-- `_pack_varchar` from the source: truncate to `n`, then cap at 255,
emit a 1-byte length prefix followed by the content padded to `n`. -/
def _pack_varchar (s : List Nat) (n : Nat) : List Nat :=
  let b := s.take n
  let b2 := if 256 ≤ b.length then b.take 255 else b
  b2.length :: (b2 ++ List.replicate (n - b2.length) 0)

/-- `_unpack_varchar` from the source: read the length byte, take that
many content bytes. -/
def _unpack_varchar (b : List Nat) (_n : Nat) : List Nat :=
  match b with
  | [] => []
  | len :: rest => rest.take len

/-- A parsed field type, the result of `_parse_type` on the schema's type
string (`"int"`, `"float"`, `"char(N)"`, `"varchar(N)"`). -/
inductive FieldType where
  | fint
  | ffloat
  | fchar (n : Nat)
  | fvarchar (n : Nat)
deriving DecidableEq

/-- A field descriptor `{"name": ..., "type": ...}` with the type already
parsed. -/
structure FieldDesc where
  name : String
  type : FieldType
deriving DecidableEq

/-- A scalar value of a structured record: a Python int, a float given by
its IEEE-754 single-precision bit pattern, or a str given by its UTF-8
bytes. -/
inductive Value where
  | vint (i : Int)
  | vfloat (w : Nat)
  | vstr (s : List Nat)
deriving DecidableEq

/-- The default used by `encode_record` for a missing field: `0` for
numeric types (`0.0` has bit pattern 0), `""` for strings. -/
def defaultValue : FieldType → Value
  | .fint => .vint 0
  | .ffloat => .vfloat 0
  | .fchar _ => .vstr []
  | .fvarchar _ => .vstr []

/-- `record_dict.get(name, default)` on an association-list model of the
Python dict. -/
def rget (r : List (String × Value)) (name : String) (d : Value) : Value :=
  (r.lookup name).getD d

/-- One field of `encode_record`'s loop body, for a value of the declared
type; `none` is the `struct.error` of `_pack_int` (the Python coercions
`int(...)`, `float(...)`, `str(...)` are identities on values that
already have the declared type, the only case the claims quantify
over). -/
def encodeField : FieldType → Value → Option (List Nat)
  | .fint, .vint i => _pack_int i
  | .ffloat, .vfloat w => some (_pack_float w)
  | .fchar n, .vstr s => some (_pack_char s n)
  | .fvarchar n, .vstr s => some (_pack_varchar s n)
  | _, _ => none

/-- The field loop of `encode_record`: encode each field in declared
order and concatenate (`b"".join(out_parts)`). -/
def encodeFields (r : List (String × Value)) : List FieldDesc → Option (List Nat)
  | [] => some []
  | f :: rest =>
    match encodeField f.type (rget r f.name (defaultValue f.type)),
          encodeFields r rest with
    | some b, some bs => some (b ++ bs)
    | _, _ => none

/-- `encode_record` from the source; the schema maps a table name to its
parsed field descriptors, and `none` covers the unknown-table
`ValueError` and the `struct.error` cases. -/
def encode_record (r : List (String × Value)) (t : String)
    (schema : List (String × List FieldDesc)) : Option (List Nat) :=
  match schema.lookup t with
  | none => none
  | some fields => encodeFields r fields

/-- The field loop of `decode_record`, walking `record_bytes` at a running
offset `idx`, consuming each field's fixed width. -/
def decodeFields (bytes : List Nat) : Nat → List FieldDesc → Option (List (String × Value))
  | _, [] => some []
  | idx, f :: rest =>
    match f.type with
    | .fint =>
      match _unpack_int ((bytes.drop idx).take 4) with
      | none => none
      | some i =>
        (decodeFields bytes (idx + 4) rest).map
          (fun tl => (f.name, Value.vint i) :: tl)
    | .ffloat =>
      match _unpack_float ((bytes.drop idx).take 4) with
      | none => none
      | some w =>
        (decodeFields bytes (idx + 4) rest).map
          (fun tl => (f.name, Value.vfloat w) :: tl)
    | .fchar n =>
      (decodeFields bytes (idx + n) rest).map
        (fun tl => (f.name, Value.vstr (_unpack_char ((bytes.drop idx).take n))) :: tl)
    | .fvarchar n =>
      (decodeFields bytes (idx + (1 + n)) rest).map
        (fun tl => (f.name, Value.vstr (_unpack_varchar ((bytes.drop idx).take (1 + n)) n)) :: tl)

/-- `decode_record` from the source; the result dict is modelled as the
association list built in field order. -/
def decode_record (bytes : List Nat) (t : String)
    (schema : List (String × List FieldDesc)) : Option (List (String × Value)) :=
  match schema.lookup t with
  | none => none
  | some fields => decodeFields bytes 0 fields

/-- `read_all_structured_records` from the source: scan the heap file and
decode every record; `none` covers the `KeyError` on an unknown table. -/
def read_all_structured_records (t : String) (schema : List (String × List FieldDesc))
    (fs : Option (List Nat)) : Option (List (List (String × Value))) :=
  match schema.lookup t with
  | none => none
  | some _ => (get_all_raw_records fs).mapM (fun x => decode_record x.2.2 t schema)

/-- The value-range side conditions of claim C1's round-trip, as a
decidable check: an int in signed 32-bit range, a float bit pattern below
2^32, a string whose UTF-8 encoding fits the declared width with no
trailing zero byte, and (for `varchar`) at most 255 bytes. -/
def valueFits : FieldType → Value → Bool
  | .fint, .vint i => decide (-2147483648 ≤ i) && decide (i < 2147483648)
  | .ffloat, .vfloat w => decide (w < 4294967296)
  | .fchar n, .vstr s => decide (s.length ≤ n) && decide (s.getLast? ≠ some 0)
  | .fvarchar n, .vstr s =>
    decide (s.length ≤ n) && decide (s.length ≤ 255) && decide (s.getLast? ≠ some 0)
  | _, _ => false

/-- Total length in bytes of a list of records. -/
def sumLens (rs : List (List Nat)) : Nat := (rs.map List.length).sum

/-- A page image holds exactly the records `rs`, in slot order, laid out
as the slotted-page format prescribes. -/
def PageRep (p : List Nat) (rs : List (List Nat)) : Prop :=
  p.length = PAGE_SIZE ∧
  slotCount p = rs.length ∧
  freeOff p = sumLens rs ∧
  4 * rs.length + sumLens rs ≤ 4092 ∧
  (∀ i, i < rs.length → slotOffset p i + slotLength p i ≤ freeOff p) ∧
  (∀ i, i < rs.length → recordAt p i = rs.getD i [])

/-- Pages obtainable from the empty page by successful
`insert_record_into_page` steps. -/
inductive ReachablePage : List Nat → Prop where
  | init : ReachablePage init_empty_page
  | step (p r q : List Nat) (s : Nat) : ReachablePage p →
      insert_record_into_page p r = some (q, s) → ReachablePage q

/-- The spec's Page data-model invariant: 4096 bytes, the slot directory
does not overlap the record region, and every slot points inside the
record region `[0, free_offset)`. -/
def PageWF (p : List Nat) : Prop :=
  p.length = PAGE_SIZE ∧
  4 * slotCount p + freeOff p ≤ 4092 ∧
  ∀ i, i < slotCount p → slotOffset p i + slotLength p i ≤ freeOff p

/-- The raw bytes `data` of a heap file are the concatenation of the page
images `ps`, and page `i` holds exactly the records `pages i`. -/
def FileRep (data : List Nat) (ps : List (List Nat))
    (pages : List (List (List Nat))) : Prop :=
  data = ps.flatten ∧
  ps.length = pages.length ∧
  ∀ i, i < pages.length → PageRep (ps.getD i []) (pages.getD i [])

/-- Heap-file states produced by `insert_record` from an absent or empty
file, abstracted to the per-page record lists `pages`. -/
def HeapInv (fs : Option (List Nat)) (pages : List (List (List Nat))) : Prop :=
  (pages = [] ∧ (fs = none ∨ fs = some [])) ∨
  ((∃ data ps, fs = some data ∧ FileRep data ps pages) ∧
    pages ≠ [] ∧ ∀ pg ∈ pages, pg ≠ [])

/-- The scan output `get_all_raw_records` should produce on the abstract
state: every page in order, every slot in index order. -/
def scanAbs (pages : List (List (List Nat))) : List (Nat × Nat × List Nat) :=
  ((List.range pages.length).map
    (fun p => (List.range (pages.getD p []).length).map
      (fun si => (p, si, (pages.getD p []).getD si [])))).flatten

/-- Strict lexicographic order on `(page_number, slot_index)` keys of
scan triples. -/
def keyLt (a b : Nat × Nat × List Nat) : Prop :=
  a.1 < b.1 ∨ (a.1 = b.1 ∧ a.2.1 < b.2.1)

/-- Insert a sequence of records one after another with `insert_record`,
threading the file state; `none` if any insert raises. -/
def insertAll (fs : Option (List Nat)) : List (List Nat) → Option (Option (List Nat))
  | [] => some fs
  | r :: rest =>
    match insert_record fs r with
    | some (d, _, _) => insertAll (some d) rest
    | none => none

/-- Number of whole pages in a heap-file state. -/
def numPagesOf (fs : Option (List Nat)) : Nat :=
  match fs with
  | none => 0
  | some d => d.length / PAGE_SIZE

/-! ### Byte-level lemmas -/

theorem length_toU16 (v : Nat) : (toU16 v).length = 2 := rfl

theorem byteAt_append_left {l m : List Nat} {i : Nat} (h : i < l.length) :
    byteAt (l ++ m) i = byteAt l i := by
  simp [byteAt, List.getD_eq_getElem?_getD, List.getElem?_append_left h]

theorem byteAt_append_right {l m : List Nat} {i : Nat} (h : l.length ≤ i) :
    byteAt (l ++ m) i = byteAt m (i - l.length) := by
  simp [byteAt, List.getD_eq_getElem?_getD, List.getElem?_append_right h]

theorem byteAt_take {l : List Nat} {i n : Nat} (h : i < n) :
    byteAt (l.take n) i = byteAt l i := by
  simp [byteAt, List.getD_eq_getElem?_getD, List.getElem?_take, h]

theorem byteAt_drop {l : List Nat} {i n : Nat} :
    byteAt (l.drop n) i = byteAt l (n + i) := by
  simp [byteAt, List.getD_eq_getElem?_getD, List.getElem?_drop]

theorem byteAt_replicate {n a i : Nat} :
    byteAt (List.replicate n a) i = if i < n then a else 0 := by
  simp only [byteAt, List.getD_eq_getElem?_getD, List.getElem?_replicate]
  split <;> simp

theorem length_setBytes {p d : List Nat} {pos : Nat} (h : pos + d.length ≤ p.length) :
    (setBytes p pos d).length = p.length := by
  simp [setBytes]
  omega

theorem byteAt_setBytes_left {p d : List Nat} {pos i : Nat}
    (h : i < pos) (hp : pos ≤ p.length) :
    byteAt (setBytes p pos d) i = byteAt p i := by
  unfold setBytes
  rw [byteAt_append_left (by simp; omega), byteAt_append_left (by simp; omega),
    byteAt_take h]

theorem byteAt_setBytes_mid {p d : List Nat} {pos i : Nat}
    (h1 : pos ≤ i) (h2 : i < pos + d.length) (hp : pos ≤ p.length) :
    byteAt (setBytes p pos d) i = byteAt d (i - pos) := by
  unfold setBytes
  rw [byteAt_append_left (by simp; omega), byteAt_append_right (by simp; omega)]
  congr 1
  simp
  omega

theorem byteAt_setBytes_right {p d : List Nat} {pos i : Nat}
    (h : pos + d.length ≤ i) (hp : pos + d.length ≤ p.length) :
    byteAt (setBytes p pos d) i = byteAt p i := by
  unfold setBytes
  rw [byteAt_append_right (by simp; omega), byteAt_drop]
  congr 1
  simp
  omega

theorem readU16_setBytes_pair_fst {p : List Nat} {pos a b : Nat}
    (hp : pos + 4 ≤ p.length) :
    readU16 (setBytes p pos (toU16 a ++ toU16 b)) pos = a % 65536 := by
  unfold readU16
  rw [byteAt_setBytes_mid (by omega) (by simp [toU16]) (by omega),
    byteAt_setBytes_mid (by omega) (by simp [toU16]) (by omega)]
  simp only [Nat.sub_self, toU16]
  have h1 : byteAt ([a / 256 % 256, a % 256] ++ [b / 256 % 256, b % 256]) 0 = a / 256 % 256 := rfl
  have h2 : pos + 1 - pos = 1 := by omega
  rw [h1, h2]
  have h3 : byteAt ([a / 256 % 256, a % 256] ++ [b / 256 % 256, b % 256]) 1 = a % 256 := rfl
  rw [h3]
  omega

theorem readU16_setBytes_pair_snd {p : List Nat} {pos a b : Nat}
    (hp : pos + 4 ≤ p.length) :
    readU16 (setBytes p pos (toU16 a ++ toU16 b)) (pos + 2) = b % 65536 := by
  unfold readU16
  rw [byteAt_setBytes_mid (by omega) (by simp [toU16]) (by omega),
    byteAt_setBytes_mid (by omega) (by simp [toU16]) (by omega)]
  have h2 : pos + 2 - pos = 2 := by omega
  have h4 : pos + 2 + 1 - pos = 3 := by omega
  rw [h2, h4]
  simp only [toU16]
  have h1 : byteAt ([a / 256 % 256, a % 256] ++ [b / 256 % 256, b % 256]) 2 = b / 256 % 256 := rfl
  have h3 : byteAt ([a / 256 % 256, a % 256] ++ [b / 256 % 256, b % 256]) 3 = b % 256 := rfl
  rw [h1, h3]
  omega

theorem readU16_setBytes_right {p d : List Nat} {pos i : Nat}
    (h : pos + d.length ≤ i) (hp : pos + d.length ≤ p.length) :
    readU16 (setBytes p pos d) i = readU16 p i := by
  unfold readU16
  rw [byteAt_setBytes_right (by omega) hp, byteAt_setBytes_right (by omega) hp]

theorem readU16_setBytes_left {p d : List Nat} {pos i : Nat}
    (h : i + 2 ≤ pos) (hp : pos ≤ p.length) :
    readU16 (setBytes p pos d) i = readU16 p i := by
  unfold readU16
  rw [byteAt_setBytes_left (by omega) hp, byteAt_setBytes_left (by omega) hp]

/-! ### Page-level lemmas -/

theorem length_init_empty_page : init_empty_page.length = 4096 := by
  unfold init_empty_page write_footer
  rw [length_setBytes (by rw [List.length_replicate]; decide), List.length_replicate]
  rfl

theorem slotCount_init_empty_page : slotCount init_empty_page = 0 := by
  unfold init_empty_page write_footer slotCount
  rw [readU16_setBytes_pair_fst (by rw [List.length_replicate]; decide)]

theorem freeOff_init_empty_page : freeOff init_empty_page = 0 := by
  unfold init_empty_page write_footer freeOff
  have h : PAGE_SIZE - 2 = (PAGE_SIZE - FOOTER_SIZE) + 2 := by decide
  rw [h, readU16_setBytes_pair_snd (by rw [List.length_replicate]; decide)]

theorem free_space_init_empty_page : free_space_in_page init_empty_page = 4092 := by
  unfold free_space_in_page
  rw [slotCount_init_empty_page, freeOff_init_empty_page]
  decide

theorem insert_record_into_page_none_iff {p r : List Nat} :
    insert_record_into_page p r = none ↔
      free_space_in_page p < (r.length + 4 : Int) := by
  have hcast : ((SLOT_ENTRY_SIZE : Nat) : Int) = 4 := rfl
  unfold insert_record_into_page
  split
  · rename_i hc
    rw [hcast] at hc
    simp [hc]
  · rename_i hc
    rw [hcast] at hc
    simp [hc]

theorem slot_pos_eq (i : Nat) : slot_pos i = 4092 - (i + 1) * 4 := rfl

theorem slot_pos_le (i : Nat) : slot_pos i ≤ 4088 := by
  rw [slot_pos_eq]; omega

theorem length_write_footer {p : List Nat} {a b : Nat} (h : p.length = 4096) :
    (write_footer p a b).length = 4096 := by
  unfold write_footer
  rw [length_setBytes (by simp [toU16, PAGE_SIZE, FOOTER_SIZE]; omega), h]

theorem length_write_slot {p : List Nat} {i a b : Nat} (h : p.length = 4096) :
    (write_slot p i a b).length = 4096 := by
  unfold write_slot
  have := slot_pos_le i
  rw [length_setBytes (by simp [toU16]; omega), h]

theorem slotCount_write_footer {p : List Nat} {a b : Nat} (h : p.length = 4096) :
    slotCount (write_footer p a b) = a % 65536 := by
  unfold slotCount write_footer
  exact readU16_setBytes_pair_fst (by simp [PAGE_SIZE, FOOTER_SIZE]; omega)

theorem freeOff_write_footer {p : List Nat} {a b : Nat} (h : p.length = 4096) :
    freeOff (write_footer p a b) = b % 65536 := by
  unfold freeOff write_footer
  have h2 : PAGE_SIZE - 2 = (PAGE_SIZE - FOOTER_SIZE) + 2 := rfl
  rw [h2]
  exact readU16_setBytes_pair_snd (by simp [PAGE_SIZE, FOOTER_SIZE]; omega)

theorem slotCount_write_slot {p : List Nat} {i a b : Nat} (h : p.length = 4096) :
    slotCount (write_slot p i a b) = slotCount p := by
  unfold slotCount write_slot
  have := slot_pos_le i
  exact readU16_setBytes_right (by simp [toU16, PAGE_SIZE, FOOTER_SIZE]; omega)
    (by simp [toU16]; omega)

theorem freeOff_write_slot {p : List Nat} {i a b : Nat} (h : p.length = 4096) :
    freeOff (write_slot p i a b) = freeOff p := by
  unfold freeOff write_slot
  have := slot_pos_le i
  exact readU16_setBytes_right (by simp [toU16, PAGE_SIZE]; omega)
    (by simp [toU16]; omega)

theorem slotCount_setBytes_at_freeOff {p r : List Nat} {fo : Nat}
    (h : p.length = 4096) (hfo : fo + r.length ≤ 4092) :
    slotCount (setBytes p fo r) = slotCount p := by
  unfold slotCount
  exact readU16_setBytes_right (by simp [PAGE_SIZE, FOOTER_SIZE]; omega) (by omega)

theorem freeOff_setBytes_at_freeOff {p r : List Nat} {fo : Nat}
    (h : p.length = 4096) (hfo : fo + r.length ≤ 4092) :
    freeOff (setBytes p fo r) = freeOff p := by
  unfold freeOff
  exact readU16_setBytes_right (by simp [PAGE_SIZE]; omega) (by omega)

theorem slotOffset_write_footer {p : List Nat} {a b i : Nat} (h : p.length = 4096) :
    slotOffset (write_footer p a b) i = slotOffset p i := by
  unfold slotOffset write_footer
  have := slot_pos_le i
  have hPF : PAGE_SIZE - FOOTER_SIZE = 4092 := rfl
  exact readU16_setBytes_left (by omega) (by omega)

theorem slotLength_write_footer {p : List Nat} {a b i : Nat} (h : p.length = 4096) :
    slotLength (write_footer p a b) i = slotLength p i := by
  unfold slotLength write_footer
  have := slot_pos_le i
  have hPF : PAGE_SIZE - FOOTER_SIZE = 4092 := rfl
  exact readU16_setBytes_left (by omega) (by omega)

theorem slotOffset_write_slot_self {p : List Nat} {i a b : Nat} (h : p.length = 4096) :
    slotOffset (write_slot p i a b) i = a % 65536 := by
  unfold slotOffset write_slot
  have := slot_pos_le i
  exact readU16_setBytes_pair_fst (by omega)

theorem slotLength_write_slot_self {p : List Nat} {i a b : Nat} (h : p.length = 4096) :
    slotLength (write_slot p i a b) i = b % 65536 := by
  unfold slotLength write_slot
  have := slot_pos_le i
  exact readU16_setBytes_pair_snd (by omega)

theorem slotOffset_write_slot_lt {p : List Nat} {i a b j : Nat} (h : p.length = 4096)
    (hi : 4 * (i + 1) ≤ 4092) (hj : j < i) :
    slotOffset (write_slot p i a b) j = slotOffset p j := by
  unfold slotOffset write_slot
  have h1 := slot_pos_eq i
  have h2 := slot_pos_eq j
  exact readU16_setBytes_right (by simp [toU16]; omega) (by simp [toU16]; omega)

theorem slotLength_write_slot_lt {p : List Nat} {i a b j : Nat} (h : p.length = 4096)
    (hi : 4 * (i + 1) ≤ 4092) (hj : j < i) :
    slotLength (write_slot p i a b) j = slotLength p j := by
  unfold slotLength write_slot
  have h1 := slot_pos_eq i
  have h2 := slot_pos_eq j
  exact readU16_setBytes_right (by simp [toU16]; omega) (by simp [toU16]; omega)

theorem slotOffset_setBytes_at_freeOff {p r : List Nat} {fo j : Nat}
    (h : p.length = 4096) (hfo : fo + r.length ≤ slot_pos j) :
    slotOffset (setBytes p fo r) j = slotOffset p j := by
  unfold slotOffset
  have := slot_pos_le j
  exact readU16_setBytes_right (by omega) (by omega)

theorem slotLength_setBytes_at_freeOff {p r : List Nat} {fo j : Nat}
    (h : p.length = 4096) (hfo : fo + r.length ≤ slot_pos j) :
    slotLength (setBytes p fo r) j = slotLength p j := by
  unfold slotLength
  have := slot_pos_le j
  exact readU16_setBytes_right (by omega) (by omega)

theorem byteAt_write_footer {p : List Nat} {a b j : Nat} (h : p.length = 4096)
    (hj : j < 4092) :
    byteAt (write_footer p a b) j = byteAt p j := by
  unfold write_footer
  have hPF : PAGE_SIZE - FOOTER_SIZE = 4092 := rfl
  exact byteAt_setBytes_left (by omega) (by omega)

theorem byteAt_write_slot {p : List Nat} {i a b j : Nat} (h : p.length = 4096)
    (hj : j < slot_pos i) :
    byteAt (write_slot p i a b) j = byteAt p j := by
  unfold write_slot
  have := slot_pos_le i
  exact byteAt_setBytes_left hj (by omega)

theorem byteAt_write_slot_ge {p : List Nat} {i a b j : Nat} (h : p.length = 4096)
    (hj : slot_pos i + 4 ≤ j) :
    byteAt (write_slot p i a b) j = byteAt p j := by
  unfold write_slot
  have := slot_pos_le i
  exact byteAt_setBytes_right (by simp [toU16]; omega) (by simp [toU16]; omega)

theorem insert_record_into_page_success {p r q : List Nat} {s : Nat}
    (hlen : p.length = PAGE_SIZE)
    (hins : insert_record_into_page p r = some (q, s)) :
    s = slotCount p ∧
    q.length = PAGE_SIZE ∧
    slotCount q = slotCount p + 1 ∧
    freeOff q = freeOff p + r.length ∧
    4 * (slotCount p + 1) + (freeOff p + r.length) ≤ 4092 ∧
    slotOffset q (slotCount p) = freeOff p ∧
    slotLength q (slotCount p) = r.length ∧
    (∀ j, j < freeOff p → byteAt q j = byteAt p j) ∧
    (∀ j, j < r.length → byteAt q (freeOff p + j) = byteAt r j) ∧
    (∀ j, slot_pos (slotCount p) + 4 ≤ j → j < 4092 → byteAt q j = byteAt p j) ∧
    (∀ i, i < slotCount p →
      slotOffset q i = slotOffset p i ∧ slotLength q i = slotLength p i) := by
  have hfree : ¬ free_space_in_page p < (r.length + 4 : Int) := by
    intro hc
    rw [insert_record_into_page_none_iff.mpr hc] at hins
    exact Option.noConfusion hins
  have harith : 4 * slotCount p + freeOff p + r.length + 4 ≤ 4092 := by
    unfold free_space_in_page at hfree
    simp only [PAGE_SIZE, FOOTER_SIZE, SLOT_ENTRY_SIZE] at hfree
    push_cast at hfree
    omega
  have hlen4 : p.length = 4096 := by rw [hlen]; rfl
  unfold insert_record_into_page at hins
  have hfree2 : ¬ free_space_in_page p < (r.length : Int) + ((SLOT_ENTRY_SIZE : Nat) : Int) :=
    hfree
  rw [if_neg hfree2] at hins
  simp only [Option.some.injEq, Prod.mk.injEq] at hins
  obtain ⟨hq, hs⟩ := hins
  subst hq
  subst hs
  have hAlen : (setBytes p (freeOff p) r).length = 4096 := by
    rw [length_setBytes (by omega), hlen4]
  have hBlen : (write_slot (setBytes p (freeOff p) r) (slotCount p) (freeOff p)
      r.length).length = 4096 := length_write_slot hAlen
  have hspc := slot_pos_eq (slotCount p)
  refine ⟨rfl, ?_, ?_, ?_, by omega, ?_, ?_, ?_, ?_, ?_, ?_⟩
  · rw [show PAGE_SIZE = 4096 from rfl]
    exact length_write_footer hBlen
  · rw [slotCount_write_footer hBlen]
    omega
  · rw [freeOff_write_footer hBlen]
    omega
  · rw [slotOffset_write_footer hBlen, slotOffset_write_slot_self hAlen]
    omega
  · rw [slotLength_write_footer hBlen, slotLength_write_slot_self hAlen]
    omega
  · intro j hj
    rw [byteAt_write_footer hBlen (by omega),
      byteAt_write_slot hAlen (by omega),
      byteAt_setBytes_left hj (by omega)]
  · intro j hj
    rw [byteAt_write_footer hBlen (by omega),
      byteAt_write_slot hAlen (by omega),
      byteAt_setBytes_mid (by omega) (by omega) (by omega)]
    congr 1
    omega
  · intro j hj1 hj2
    rw [byteAt_write_footer hBlen (by omega),
      byteAt_write_slot_ge hAlen (by omega),
      byteAt_setBytes_right (by omega) (by omega)]
  · intro i hi
    have hspi := slot_pos_eq i
    refine ⟨?_, ?_⟩
    · rw [slotOffset_write_footer hBlen,
        slotOffset_write_slot_lt hAlen (by omega) hi,
        slotOffset_setBytes_at_freeOff hlen4 (by omega)]
    · rw [slotLength_write_footer hBlen,
        slotLength_write_slot_lt hAlen (by omega) hi,
        slotLength_setBytes_at_freeOff hlen4 (by omega)]

/-! ### Slice equality from pointwise byte equality -/

theorem byteAt_eq_getElem {a : List Nat} {i : Nat} (h : i < a.length) :
    byteAt a i = a[i] := List.getD_eq_getElem a 0 h

theorem list_eq_of_byteAt {a b : List Nat} (hlen : a.length = b.length)
    (h : ∀ j, j < a.length → byteAt a j = byteAt b j) : a = b := by
  refine List.ext_getElem hlen (fun i h1 h2 => ?_)
  rw [← byteAt_eq_getElem h1, ← byteAt_eq_getElem h2]
  exact h i h1

theorem byteAt_take_drop {a : List Nat} {off len j : Nat} (hj : j < len) :
    byteAt ((a.drop off).take len) j = byteAt a (off + j) := by
  rw [byteAt_take hj, byteAt_drop]

theorem slice_eq_of_byteAt {p q : List Nat} {off len : Nat}
    (hp : off + len ≤ p.length) (hq : off + len ≤ q.length)
    (h : ∀ j, off ≤ j → j < off + len → byteAt p j = byteAt q j) :
    (p.drop off).take len = (q.drop off).take len := by
  refine list_eq_of_byteAt ?_ ?_
  · rw [List.length_take, List.length_take, List.length_drop, List.length_drop]
    omega
  · intro j hj
    rw [List.length_take, List.length_drop] at hj
    have hjlen : j < len := by omega
    rw [byteAt_take_drop hjlen, byteAt_take_drop hjlen]
    exact h (off + j) (by omega) (by omega)

theorem slice_eq_list_of_byteAt {q r : List Nat} {off : Nat}
    (hq : off + r.length ≤ q.length)
    (h : ∀ j, j < r.length → byteAt q (off + j) = byteAt r j) :
    (q.drop off).take r.length = r := by
  refine list_eq_of_byteAt ?_ ?_
  · rw [List.length_take, List.length_drop]
    omega
  · intro j hj
    rw [List.length_take, List.length_drop] at hj
    have hjlen : j < r.length := by omega
    rw [byteAt_take_drop hjlen]
    exact h j hjlen

/-! ### Page abstraction -/

theorem getD_append_lt {α : Type} {l m : List α} {i : Nat} {d : α} (h : i < l.length) :
    (l ++ m).getD i d = l.getD i d := by
  simp [List.getD_eq_getElem?_getD, List.getElem?_append_left h]

theorem getD_append_ge {α : Type} {l m : List α} {i : Nat} {d : α} (h : l.length ≤ i) :
    (l ++ m).getD i d = m.getD (i - l.length) d := by
  simp [List.getD_eq_getElem?_getD, List.getElem?_append_right h]

theorem sumLens_nil : sumLens [] = 0 := rfl

theorem sumLens_append (rs : List (List Nat)) (r : List Nat) :
    sumLens (rs ++ [r]) = sumLens rs + r.length := by
  simp [sumLens]

theorem PageRep_init : PageRep init_empty_page [] := by
  refine ⟨?_, ?_, ?_, by simp [sumLens_nil], ?_, ?_⟩
  · rw [length_init_empty_page]; rfl
  · simp [slotCount_init_empty_page]
  · simp [freeOff_init_empty_page, sumLens_nil]
  · intro i hi; simp at hi
  · intro i hi; simp at hi

theorem free_space_of_PageRep {p : List Nat} {rs : List (List Nat)}
    (h : PageRep p rs) :
    free_space_in_page p = 4092 - 4 * (rs.length : Int) - sumLens rs := by
  obtain ⟨-, hsc, hfo, -, -, -⟩ := h
  unfold free_space_in_page
  rw [hsc, hfo]
  simp only [PAGE_SIZE, FOOTER_SIZE, SLOT_ENTRY_SIZE]
  push_cast
  ring

theorem PageRep_step {p q r : List Nat} {rs : List (List Nat)} {s : Nat}
    (hrep : PageRep p rs) (hins : insert_record_into_page p r = some (q, s)) :
    PageRep q (rs ++ [r]) ∧ s = rs.length := by
  obtain ⟨hlen, hsc, hfo, hcap, hslots, hrecs⟩ := hrep
  obtain ⟨hs, hqlen, hqsc, hqfo, hqcap, hqoff, hqlenr, hlow, hrec, hmid, hold⟩ :=
    insert_record_into_page_success hlen hins
  have hlen4 : p.length = 4096 := by rw [hlen]; rfl
  have hqlen4 : q.length = 4096 := by rw [hqlen]; rfl
  refine ⟨⟨hqlen, ?_, ?_, ?_, ?_, ?_⟩, by omega⟩
  · rw [hqsc, hsc]; simp
  · rw [hqfo, hfo, sumLens_append]
  · rw [sumLens_append]; simp; omega
  · intro i hi
    simp only [List.length_append, List.length_cons, List.length_nil] at hi
    rcases Nat.lt_or_ge i rs.length with hilt | hige
    · have hisc : i < slotCount p := by omega
      rw [(hold i hisc).1, (hold i hisc).2, hqfo]
      have := hslots i hilt
      omega
    · have hieq : i = rs.length := by omega
      subst hieq
      rw [← hsc, hqoff, hqlenr, hqfo]
  · intro i hi
    simp only [List.length_append, List.length_cons, List.length_nil] at hi
    rcases Nat.lt_or_ge i rs.length with hilt | hige
    · have hisc : i < slotCount p := by omega
      unfold recordAt
      rw [(hold i hisc).1, (hold i hisc).2, getD_append_lt hilt]
      have hbound := hslots i hilt
      have heq : (q.drop (slotOffset p i)).take (slotLength p i) =
          (p.drop (slotOffset p i)).take (slotLength p i) := by
        refine slice_eq_of_byteAt (by omega) (by omega) ?_
        intro j hj1 hj2
        exact hlow j (by omega)
      rw [heq]
      exact hrecs i hilt
    · have hieq : i = rs.length := by omega
      subst hieq
      unfold recordAt
      have hqoff2 : slotOffset q rs.length = freeOff p := by rw [← hsc]; exact hqoff
      have hqlenr2 : slotLength q rs.length = r.length := by rw [← hsc]; exact hqlenr
      rw [hqoff2, hqlenr2, getD_append_ge (le_refl _)]
      simp only [Nat.sub_self, List.getD_cons_zero]
      exact slice_eq_list_of_byteAt (by omega) hrec

theorem ReachablePage_to_PageRep {p : List Nat} (h : ReachablePage p) :
    ∃ rs, PageRep p rs := by
  induction h with
  | init => exact ⟨[], PageRep_init⟩
  | step p r q s hr hins ih =>
    obtain ⟨rs, hrep⟩ := ih
    exact ⟨rs ++ [r], (PageRep_step hrep hins).1⟩

/-! ### Claim theorems: page level -/

/-- C4: `insert_record_into_page` fails with CapacityError exactly when
`free_space < len(record) + 4` (4 bytes reserved for the new slot entry);
on success it returns the new page image (the input, a pure value, is
never mutated — failure returns `none` and no page) with the assigned
slot index equal to the old `slot_count`, the footer advanced by one slot
and `len(record)` bytes. -/
theorem c4_capacity_check {p r : List Nat} (hlen : p.length = 4096) :
    (insert_record_into_page p r = none ↔
      free_space_in_page p < (r.length + 4 : Int)) ∧
    (∀ q s, insert_record_into_page p r = some (q, s) →
      s = slotCount p ∧ q.length = 4096 ∧
      slotCount q = slotCount p + 1 ∧ freeOff q = freeOff p + r.length) := by
  refine ⟨insert_record_into_page_none_iff, fun q s hins => ?_⟩
  obtain ⟨hs, hqlen, hqsc, hqfo, -, -, -, -, -, -, -⟩ :=
    insert_record_into_page_success (by rw [hlen]; rfl) hins
  exact ⟨hs, by rw [hqlen]; rfl, hqsc, hqfo⟩

/-- Witness for C4 at the empty page and a 3-byte record. -/
theorem c4_capacity_check_witness :
    (insert_record_into_page init_empty_page [1, 2, 3] = none ↔
      free_space_in_page init_empty_page < (([1, 2, 3] : List Nat).length + 4 : Int)) ∧
    (∀ q s, insert_record_into_page init_empty_page [1, 2, 3] = some (q, s) →
      s = slotCount init_empty_page ∧ q.length = 4096 ∧
      slotCount q = slotCount init_empty_page + 1 ∧
      freeOff q = freeOff init_empty_page + ([1, 2, 3] : List Nat).length) :=
  c4_capacity_check length_init_empty_page

/-- C5: every page reachable from the empty page by successful inserts
satisfies the footer invariant `4 * slot_count + free_offset ≤ 4092`
(equivalently `slot_table_start = 4092 - 4*slot_count ≥ free_offset`), so
`free_space ≥ 0`; and a successful insert of a record of length `L`
decreases the free space by exactly `L + 4`. -/
theorem c5_free_space_invariant {p : List Nat} (h : ReachablePage p) :
    4 * slotCount p + freeOff p ≤ 4092 ∧
    0 ≤ free_space_in_page p ∧
    ∀ r q s, insert_record_into_page p r = some (q, s) →
      free_space_in_page q = free_space_in_page p - (r.length + 4) := by
  obtain ⟨rs, hrep⟩ := ReachablePage_to_PageRep h
  have hfs := free_space_of_PageRep hrep
  refine ⟨?_, ?_, fun r q s hins => ?_⟩
  · have hcap := hrep.2.2.2.1
    have hsc := hrep.2.1
    have hfo := hrep.2.2.1
    omega
  · rw [hfs]
    have hcap := hrep.2.2.2.1
    omega
  · have hstep := (PageRep_step hrep hins).1
    have hfq := free_space_of_PageRep hstep
    rw [hfq, hfs, sumLens_append]
    simp only [List.length_append, List.length_cons, List.length_nil]
    push_cast
    ring

/-- Witness for C5 at the empty page, which is reachable by zero steps. -/
theorem c5_free_space_invariant_witness :
    4 * slotCount init_empty_page + freeOff init_empty_page ≤ 4092 ∧
    0 ≤ free_space_in_page init_empty_page ∧
    ∀ r q s, insert_record_into_page init_empty_page r = some (q, s) →
      free_space_in_page q = free_space_in_page init_empty_page - (r.length + 4) :=
  c5_free_space_invariant ReachablePage.init

/-- The empty page satisfies the Page data-model invariant. -/
theorem PageWF_init_empty_page : PageWF init_empty_page := by
  refine ⟨by rw [length_init_empty_page]; rfl, ?_, ?_⟩
  · rw [slotCount_init_empty_page, freeOff_init_empty_page]; omega
  · intro i hi
    rw [slotCount_init_empty_page] at hi
    omega

/-- C9: a successful `insert_record_into_page` on a well-formed page
preserves all previously stored data: every prior slot still yields the
same record bytes through `get_record_from_page`, the 4-byte slot-table
entries of prior slots are byte-identical, and the record region
`[0, old_free_offset)` is unchanged. -/
theorem c9_insert_preserves_prior_data {p r q : List Nat} {s : Nat}
    (hwf : PageWF p) (hins : insert_record_into_page p r = some (q, s)) :
    (∀ i, i < slotCount p →
      get_record_from_page q i = get_record_from_page p i) ∧
    (∀ i, i < slotCount p →
      (q.drop (slot_pos i)).take 4 = (p.drop (slot_pos i)).take 4) ∧
    q.take (freeOff p) = p.take (freeOff p) := by
  obtain ⟨hlen, hcap, hslots⟩ := hwf
  obtain ⟨hs, hqlen, hqsc, hqfo, hqcap, hqoff, hqlenr, hlow, hrec, hmid, hold⟩ :=
    insert_record_into_page_success hlen hins
  have hlen4 : p.length = 4096 := by rw [hlen]; rfl
  have hqlen4 : q.length = 4096 := by rw [hqlen]; rfl
  refine ⟨?_, ?_, ?_⟩
  · intro i hi
    unfold get_record_from_page
    rw [if_pos hi, if_pos (by omega)]
    unfold recordAt
    rw [(hold i hi).1, (hold i hi).2]
    have hbound := hslots i hi
    refine congrArg some (slice_eq_of_byteAt (by omega) (by omega) ?_)
    intro j hj1 hj2
    exact hlow j (by omega)
  · intro i hi
    have hspi := slot_pos_eq i
    have hspc := slot_pos_eq (slotCount p)
    refine slice_eq_of_byteAt (by have := slot_pos_le i; omega)
      (by have := slot_pos_le i; omega) ?_
    intro j hj1 hj2
    exact hmid j (by omega) (by omega)
  · refine list_eq_of_byteAt ?_ ?_
    · rw [List.length_take, List.length_take]
      omega
    · intro j hj
      rw [List.length_take] at hj
      have hjf : j < freeOff p := by omega
      rw [byteAt_take hjf, byteAt_take hjf]
      exact hlow j hjf

/-- Witness for C9: insert a 3-byte record into the empty well-formed
page; the (vacuous) prior slots and the empty record region are
preserved. -/
theorem c9_insert_preserves_prior_data_witness :
    ∃ q s, insert_record_into_page init_empty_page [1, 2, 3] = some (q, s) ∧
      ((∀ i, i < slotCount init_empty_page →
        get_record_from_page q i = get_record_from_page init_empty_page i) ∧
      (∀ i, i < slotCount init_empty_page →
        (q.drop (slot_pos i)).take 4 = (init_empty_page.drop (slot_pos i)).take 4) ∧
      q.take (freeOff init_empty_page) = init_empty_page.take (freeOff init_empty_page)) := by
  have hne : insert_record_into_page init_empty_page [1, 2, 3] ≠ none := by
    rw [Ne, insert_record_into_page_none_iff, free_space_init_empty_page]
    decide
  obtain ⟨⟨q, s⟩, hq⟩ := Option.ne_none_iff_exists'.mp hne
  exact ⟨q, s, hq, c9_insert_preserves_prior_data PageWF_init_empty_page hq⟩

/-! ### Primitive codec lemmas -/

theorem rstripZeros_append_zeros (s : List Nat) (k : Nat) :
    rstripZeros (s ++ List.replicate k 0) = rstripZeros s := by
  unfold rstripZeros
  rw [List.reverse_append, List.reverse_replicate]
  congr 1
  induction k with
  | zero => simp
  | succ k ih => simp only [List.replicate_succ, List.cons_append, List.dropWhile_cons, beq_self_eq_true, if_true]; exact ih

theorem rstripZeros_eq_self {s : List Nat} (h : s.getLast? ≠ some 0) :
    rstripZeros s = s := by
  unfold rstripZeros
  cases hs : s.reverse with
  | nil =>
    have : s = [] := by simpa using congrArg List.reverse hs
    simp [this]
  | cons a t =>
    have hha : s.getLast? = some a := by
      rw [← List.head?_reverse, hs]
      rfl
    have ha : (a == 0) = false := by
      rw [hha] at h
      simpa using fun hh => h (by rw [hh])
    rw [List.dropWhile_cons, ha]
    simp only [Bool.false_eq_true, if_false]
    rw [← hs, List.reverse_reverse]

theorem rstripZeros_spec (b : List Nat) :
    b = rstripZeros b ++ List.replicate (b.length - (rstripZeros b).length) 0 := by
  have hsplit := List.takeWhile_append_dropWhile (p := fun x => x == 0) (l := b.reverse)
  have htw : b.reverse.takeWhile (fun x => x == 0) =
      List.replicate (b.reverse.takeWhile (fun x => x == 0)).length 0 := by
    refine List.eq_replicate_of_mem (fun x hx => ?_)
    have := List.mem_takeWhile_imp hx
    simpa using this
  have hb : b = rstripZeros b ++
      List.replicate (b.reverse.takeWhile (fun x => x == 0)).length 0 := by
    conv_lhs => rw [← List.reverse_reverse b, ← hsplit]
    rw [List.reverse_append]
    unfold rstripZeros
    congr 1
    conv_lhs => rw [htw, List.reverse_replicate]
  have hlen : b.length = (rstripZeros b).length +
      (b.reverse.takeWhile (fun x => x == 0)).length := by
    conv_lhs => rw [hb]
    simp
  have hk : b.length - (rstripZeros b).length =
      (b.reverse.takeWhile (fun x => x == 0)).length := by omega
  rw [hk]
  exact hb

theorem head_dropWhile_ne_zero {l : List Nat} {a : Nat}
    (h : (l.dropWhile (fun b => b == 0)).head? = some a) : a ≠ 0 := by
  induction l with
  | nil => simp at h
  | cons x xs ih =>
    by_cases hx : x = 0
    · subst hx
      rw [List.dropWhile_cons] at h
      simp only [beq_self_eq_true, if_true] at h
      exact ih h
    · rw [List.dropWhile_cons] at h
      simp only [beq_iff_eq, hx, if_false] at h
      simp only [List.head?_cons, Option.some.injEq] at h
      omega

theorem rstripZeros_getLast (b : List Nat) : (rstripZeros b).getLast? ≠ some 0 := by
  unfold rstripZeros
  rw [List.getLast?_reverse]
  intro hc
  exact head_dropWhile_ne_zero hc rfl

/-! ### Claim theorems: char and varchar codecs -/

/-- C8: `_pack_char` truncates the UTF-8 bytes to at most `n` bytes (hard
byte truncation) and zero-pads on the right so the output is always
exactly `n` bytes; `_unpack_char` strips all trailing zero bytes (the
output is a prefix of the input, the stripped tail is all zeros, and the
result never ends in a zero byte) before the UTF-8 decode. -/
theorem c8_char_codec (s b : List Nat) (n : Nat) :
    (_pack_char s n).length = n ∧
    _pack_char s n = s.take n ++ List.replicate (n - s.length) 0 ∧
    (n ≤ s.length → _pack_char s n = s.take n) ∧
    _unpack_char b = rstripZeros b ∧
    b = _unpack_char b ++ List.replicate (b.length - (_unpack_char b).length) 0 ∧
    (_unpack_char b).getLast? ≠ some 0 := by
  refine ⟨?_, rfl, ?_, rfl, rstripZeros_spec b, rstripZeros_getLast b⟩
  · simp [_pack_char]
    omega
  · intro hn
    simp [_pack_char, show n - s.length = 0 by omega]

theorem take_append_eq_self {x y : List Nat} {m : Nat} (h : x.length = m) :
    (x ++ y).take m = x := by
  subst h
  exact List.take_left x y

theorem pack_varchar_eq (s : List Nat) (n : Nat) :
    _pack_varchar s n =
      min (min s.length n) 255 ::
        (s.take (min (min s.length n) 255) ++
          List.replicate (n - min (min s.length n) 255) 0) := by
  simp only [_pack_varchar]
  by_cases hc : 256 ≤ (s.take n).length
  · rw [if_pos hc]
    have h1 : (s.take n).take 255 = s.take (min (min s.length n) 255) := by
      rw [List.take_take]
      congr 1
      have := List.length_take n s
      omega
    have h2 : ((s.take n).take 255).length = min (min s.length n) 255 := by
      rw [List.length_take, List.length_take]
      omega
    rw [h2, h1]
  · rw [if_neg hc]
    have hbl := List.length_take n s
    have h1 : s.take n = s.take (min (min s.length n) 255) := by
      rw [List.take_eq_take]
      omega
    have h2 : (s.take n).length = min (min s.length n) 255 := by
      rw [List.length_take]
      omega
    rw [h2, h1]

theorem length_pack_varchar (s : List Nat) (n : Nat) :
    (_pack_varchar s n).length = 1 + n := by
  rw [pack_varchar_eq]
  simp only [List.length_cons, List.length_append, List.length_take,
    List.length_replicate]
  omega

theorem unpack_pack_varchar (s : List Nat) (n : Nat) :
    _unpack_varchar (_pack_varchar s n) n = s.take (min (min s.length n) 255) := by
  rw [pack_varchar_eq]
  simp only [_unpack_varchar]
  have hlen : (s.take (min (min s.length n) 255)).length =
      min (min s.length n) 255 := by
    rw [List.length_take]
    omega
  exact take_append_eq_self hlen

/-- C7: `_pack_varchar` stores a 1-byte length prefix equal to
`min(len(utf8), n, 255)` — the content truncated first to `n` bytes and
then to 255 — followed by exactly `n` reserved content bytes with the
tail zero-padded, so the stored width is always `1 + n` bytes; decoding
reads the length byte and takes exactly that many content bytes. -/
theorem c7_varchar_codec (s : List Nat) (n : Nat) :
    _pack_varchar s n =
      min (min s.length n) 255 ::
        (s.take (min (min s.length n) 255) ++
          List.replicate (n - min (min s.length n) 255) 0) ∧
    (_pack_varchar s n).length = 1 + n ∧
    _unpack_varchar (_pack_varchar s n) n = s.take (min (min s.length n) 255) :=
  ⟨pack_varchar_eq s n, length_pack_varchar s n, unpack_pack_varchar s n⟩

/-! ### int / float / char / varchar round trips -/

theorem length_tobe4 (w : Nat) : (tobe4 w).length = 4 := rfl

theorem frombe4_tobe4 {x : Nat} (h : x < 4294967296) : frombe4 (tobe4 x) = x := by
  show ((x / 16777216 % 256 * 256 + x / 65536 % 256) * 256 + x / 256 % 256) * 256
      + x % 256 = x
  omega

theorem pack_unpack_int {i : Int} (h1 : -2147483648 ≤ i) (h2 : i < 2147483648) :
    ∃ b, _pack_int i = some b ∧ b.length = 4 ∧ _unpack_int b = some i := by
  unfold _pack_int
  rw [if_pos ⟨h1, h2⟩]
  refine ⟨_, rfl, length_tobe4 _, ?_⟩
  unfold _unpack_int
  rw [if_pos (length_tobe4 _)]
  have hx : (i % 4294967296).toNat < 4294967296 := by omega
  rw [frombe4_tobe4 hx]
  simp only [Option.some.injEq]
  split <;> omega

theorem pack_unpack_float {w : Nat} (h : w < 4294967296) :
    (_pack_float w).length = 4 ∧ _unpack_float (_pack_float w) = some w := by
  unfold _pack_float _unpack_float
  refine ⟨length_tobe4 _, ?_⟩
  rw [if_pos (length_tobe4 _), frombe4_tobe4 (by omega)]
  congr 1
  omega

theorem pack_unpack_char {s : List Nat} {n : Nat} (hlen : s.length ≤ n)
    (hlast : s.getLast? ≠ some 0) :
    (_pack_char s n).length = n ∧ _unpack_char (_pack_char s n) = s := by
  constructor
  · simp only [_pack_char, List.length_append, List.length_take,
      List.length_replicate]
    omega
  · unfold _unpack_char _pack_char
    rw [List.take_of_length_le hlen, rstripZeros_append_zeros,
      rstripZeros_eq_self hlast]

theorem pack_unpack_varchar {s : List Nat} {n : Nat} (hlen : s.length ≤ n)
    (h255 : s.length ≤ 255) :
    (_pack_varchar s n).length = 1 + n ∧
      _unpack_varchar (_pack_varchar s n) n = s := by
  refine ⟨length_pack_varchar s n, ?_⟩
  rw [unpack_pack_varchar]
  have hm : min (min s.length n) 255 = s.length := by omega
  rw [hm, List.take_of_length_le (le_refl _)]

/-! ### Record codec -/

theorem drop_append_eq {x : List Nat} (y : List Nat) {w : Nat} (h : x.length = w) :
    (x ++ y).drop w = y := by
  subst h
  exact List.drop_left x y

theorem encodeFields_some {r : List (String × Value)} {fields : List FieldDesc}
    (h : ∀ f ∈ fields, valueFits f.type (rget r f.name (defaultValue f.type)) = true) :
    ∃ bs, encodeFields r fields = some bs := by
  induction fields with
  | nil => exact ⟨[], rfl⟩
  | cons f rest ih =>
    obtain ⟨bs2, hbs2⟩ := ih (fun g hg => h g (List.mem_cons_of_mem _ hg))
    have hf := h f (List.mem_cons_self _ _)
    simp only [encodeFields, hbs2]
    generalize rget r f.name (defaultValue f.type) = v at hf ⊢
    cases ht : f.type <;> rw [ht] at hf <;> cases v <;>
      simp [valueFits] at hf
    case fint.vint i =>
      obtain ⟨b, hb, -, -⟩ := pack_unpack_int hf.1 hf.2
      simp only [encodeField, hb]
      exact ⟨_, rfl⟩
    case ffloat.vfloat w =>
      simp only [encodeField]
      exact ⟨_, rfl⟩
    case fchar.vstr n s =>
      simp only [encodeField]
      exact ⟨_, rfl⟩
    case fvarchar.vstr n s =>
      simp only [encodeField]
      exact ⟨_, rfl⟩

theorem decodeFields_of_encodeFields {r : List (String × Value)} :
    ∀ (fields : List FieldDesc) (bs bytes post : List Nat) (idx : Nat),
    (∀ f ∈ fields, valueFits f.type (rget r f.name (defaultValue f.type)) = true) →
    encodeFields r fields = some bs →
    bytes.drop idx = bs ++ post →
    decodeFields bytes idx fields =
      some (fields.map (fun f => (f.name, rget r f.name (defaultValue f.type)))) := by
  intro fields
  induction fields with
  | nil =>
    intro bs bytes post idx h henc hdrop
    simp [decodeFields]
  | cons f rest ih =>
    intro bs bytes post idx h henc hdrop
    have hf := h f (List.mem_cons_self _ _)
    have hrest := fun g hg => h g (List.mem_cons_of_mem _ hg)
    simp only [encodeFields] at henc
    simp only [decodeFields, List.map_cons]
    generalize hv : rget r f.name (defaultValue f.type) = v at hf henc ⊢
    cases ht : f.type <;> rw [ht] at hf henc <;> cases v <;> simp [valueFits] at hf
    case fint.vint i =>
      obtain ⟨b, hb, hblen, hunp⟩ := pack_unpack_int hf.1 hf.2
      simp only [encodeField, hb] at henc
      cases hrest2 : encodeFields r rest <;> rw [hrest2] at henc
      · exact Option.noConfusion henc
      · rename_i bs2
        simp only [Option.some.injEq] at henc
        subst henc
        have hchunk : (bytes.drop idx).take 4 = b := by
          rw [hdrop, List.append_assoc]
          exact take_append_eq_self hblen
        have hdrop2 : bytes.drop (idx + 4) = bs2 ++ post := by
          rw [← List.drop_drop, hdrop, List.append_assoc]
          exact drop_append_eq _ hblen
        rw [hchunk, hunp, ih bs2 bytes post (idx + 4) hrest hrest2 hdrop2]
        rfl
    case ffloat.vfloat w =>
      obtain ⟨hblen, hunp⟩ := pack_unpack_float hf
      simp only [encodeField] at henc
      cases hrest2 : encodeFields r rest <;> rw [hrest2] at henc
      · exact Option.noConfusion henc
      · rename_i bs2
        simp only [Option.some.injEq] at henc
        subst henc
        have hchunk : (bytes.drop idx).take 4 = _pack_float w := by
          rw [hdrop, List.append_assoc]
          exact take_append_eq_self hblen
        have hdrop2 : bytes.drop (idx + 4) = bs2 ++ post := by
          rw [← List.drop_drop, hdrop, List.append_assoc]
          exact drop_append_eq _ hblen
        rw [hchunk, hunp, ih bs2 bytes post (idx + 4) hrest hrest2 hdrop2]
        rfl
    case fchar.vstr n s =>
      obtain ⟨hblen, hdec⟩ := pack_unpack_char hf.1 hf.2
      simp only [encodeField] at henc
      cases hrest2 : encodeFields r rest <;> rw [hrest2] at henc
      · exact Option.noConfusion henc
      · rename_i bs2
        simp only [Option.some.injEq] at henc
        subst henc
        have hchunk : (bytes.drop idx).take n = _pack_char s n := by
          rw [hdrop, List.append_assoc]
          exact take_append_eq_self hblen
        have hdrop2 : bytes.drop (idx + n) = bs2 ++ post := by
          rw [← List.drop_drop, hdrop, List.append_assoc]
          exact drop_append_eq _ hblen
        dsimp only
        rw [hchunk, hdec, ih bs2 bytes post (idx + n) hrest hrest2 hdrop2]
        rfl
    case fvarchar.vstr n s =>
      obtain ⟨hblen, hdec⟩ := pack_unpack_varchar hf.1.1 hf.1.2
      simp only [encodeField] at henc
      cases hrest2 : encodeFields r rest <;> rw [hrest2] at henc
      · exact Option.noConfusion henc
      · rename_i bs2
        simp only [Option.some.injEq] at henc
        subst henc
        have hchunk : (bytes.drop idx).take (1 + n) = _pack_varchar s n := by
          rw [hdrop, List.append_assoc]
          exact take_append_eq_self hblen
        have hdrop2 : bytes.drop (idx + (1 + n)) = bs2 ++ post := by
          rw [← List.drop_drop, hdrop, List.append_assoc]
          exact drop_append_eq _ hblen
        dsimp only
        rw [hchunk, hdec, ih bs2 bytes post (idx + (1 + n)) hrest hrest2 hdrop2]
        rfl

/-! ### Claim theorems: record round trip -/

/-- C1 (amended): for every schema table and record with values within
the field widths and ranges — an int in signed 32-bit range, a float
exactly representable in single precision (modelled by its bit pattern),
a string whose UTF-8 bytes fit the declared width, carry no trailing zero
byte, and (for `varchar` fields) are at most 255 bytes —
`decode_record (encode_record record)` returns the record with missing
fields filled by their defaults; a `char` value longer than the width is
stored truncated at exactly `n` bytes (not `n+1`), and a `varchar` value
longer than the width at exactly `min(n, 255)` bytes. -/
theorem c1_round_trip :
    (∀ (r : List (String × Value)) (t : String)
        (schema : List (String × List FieldDesc)) (fields : List FieldDesc),
      schema.lookup t = some fields →
      (∀ f ∈ fields, valueFits f.type (rget r f.name (defaultValue f.type)) = true) →
      ∃ bs, encode_record r t schema = some bs ∧
        decode_record bs t schema =
          some (fields.map (fun f => (f.name, rget r f.name (defaultValue f.type))))) ∧
    (∀ (s : List Nat) (n : Nat), n < s.length →
      _pack_char s n = s.take n ∧ (_pack_char s n).length = n) ∧
    (∀ (s : List Nat) (n : Nat), n < s.length →
      _unpack_varchar (_pack_varchar s n) n = s.take (min n 255) ∧
      (_pack_varchar s n).length = 1 + n) := by
  refine ⟨?_, ?_, ?_⟩
  · intro r t schema fields hlook h
    obtain ⟨bs, hbs⟩ := encodeFields_some h
    refine ⟨bs, ?_, ?_⟩
    · unfold encode_record
      rw [hlook]
      dsimp only
      exact hbs
    · unfold decode_record
      rw [hlook]
      dsimp only
      exact decodeFields_of_encodeFields fields bs bs [] 0 h hbs (by simp)
  · intro s n hn
    refine ⟨?_, ?_⟩
    · simp only [_pack_char, show n - s.length = 0 by omega]
      simp
    · simp only [_pack_char, List.length_append, List.length_take,
        List.length_replicate]
      omega
  · intro s n hn
    refine ⟨?_, length_pack_varchar s n⟩
    rw [unpack_pack_varchar]
    congr 1
    omega

/-- C1 as literally stated is false: for a `varchar(300)` field and a
280-byte string — within the declared width, no trailing zero byte — the
stored content is double-truncated to 255 bytes, so the decoded mapping
differs from the record. -/
theorem c1_round_trip_as_stated_false :
    ((List.replicate 280 (65 : Nat)).length ≤ 300 ∧
      (List.replicate 280 (65 : Nat)).getLast? ≠ some 0) ∧
    encode_record [("v", Value.vstr (List.replicate 280 65))] "T"
        [("T", [⟨"v", FieldType.fvarchar 300⟩])] =
      some (_pack_varchar (List.replicate 280 65) 300) ∧
    decode_record (_pack_varchar (List.replicate 280 65) 300) "T"
        [("T", [⟨"v", FieldType.fvarchar 300⟩])] =
      some [("v", Value.vstr (List.replicate 255 65))] ∧
    Value.vstr (List.replicate 255 (65 : Nat)) ≠
      Value.vstr (List.replicate 280 (65 : Nat)) := by
  have hlen280 : (List.replicate 280 (65 : Nat)).length = 280 :=
    List.length_replicate 280 65
  refine ⟨⟨by rw [hlen280]; norm_num, ?_⟩, ?_, ?_, ?_⟩
  · rw [List.getLast?_replicate]
    norm_num
  · unfold encode_record
    rw [show List.lookup "T" [("T", [(⟨"v", FieldType.fvarchar 300⟩ : FieldDesc)])] =
      some [(⟨"v", FieldType.fvarchar 300⟩ : FieldDesc)] from rfl]
    dsimp only
    simp only [encodeFields, encodeField]
    rw [show rget [("v", Value.vstr (List.replicate 280 65))] "v"
      (defaultValue (FieldType.fvarchar 300)) =
        Value.vstr (List.replicate 280 65) from rfl]
    dsimp only
    rw [List.append_nil]
  · unfold decode_record
    rw [show List.lookup "T" [("T", [(⟨"v", FieldType.fvarchar 300⟩ : FieldDesc)])] =
      some [(⟨"v", FieldType.fvarchar 300⟩ : FieldDesc)] from rfl]
    dsimp only
    simp only [decodeFields]
    have hchunk : ((_pack_varchar (List.replicate 280 65) 300).drop 0).take (1 + 300) =
        _pack_varchar (List.replicate 280 65) 300 := by
      rw [List.drop_zero]
      exact List.take_of_length_le (by rw [length_pack_varchar])
    rw [hchunk, unpack_pack_varchar]
    have hm : min (min (List.replicate 280 (65 : Nat)).length 300) 255 = 255 := by
      rw [hlen280]
      norm_num
    rw [hm, List.take_replicate]
    rfl
  · intro hc
    have hlensEq := congrArg
      (fun v => match v with | Value.vstr s => s.length | _ => 0) hc
    simp only [hlen280, List.length_replicate] at hlensEq
    omega

/-- Witness for C1 at a concrete schema exercising every field type with
the representative values: a negative int, the float `0.0` (bit pattern
0), a max-length `char(5)` string, an empty `varchar(7)` string, and a
missing field defaulted to the empty string. -/
theorem c1_round_trip_witness :
    (∃ bs,
      encode_record
          [("id", Value.vint (-7)), ("name", Value.vstr [72, 73, 74, 75, 76]),
            ("loc", Value.vstr []), ("salary", Value.vfloat 0)] "Emp"
          [("Emp", [⟨"id", FieldType.fint⟩, ⟨"name", FieldType.fchar 5⟩,
            ⟨"loc", FieldType.fvarchar 7⟩, ⟨"salary", FieldType.ffloat⟩,
            ⟨"note", FieldType.fchar 3⟩])] = some bs ∧
      decode_record bs "Emp"
          [("Emp", [⟨"id", FieldType.fint⟩, ⟨"name", FieldType.fchar 5⟩,
            ⟨"loc", FieldType.fvarchar 7⟩, ⟨"salary", FieldType.ffloat⟩,
            ⟨"note", FieldType.fchar 3⟩])] =
        some (([⟨"id", FieldType.fint⟩, ⟨"name", FieldType.fchar 5⟩,
            ⟨"loc", FieldType.fvarchar 7⟩, ⟨"salary", FieldType.ffloat⟩,
            ⟨"note", FieldType.fchar 3⟩] : List FieldDesc).map
          (fun f => (f.name,
            rget [("id", Value.vint (-7)), ("name", Value.vstr [72, 73, 74, 75, 76]),
              ("loc", Value.vstr []), ("salary", Value.vfloat 0)]
              f.name (defaultValue f.type))))) ∧
    (_pack_char [1, 2, 3] 2 = [1, 2, 3].take 2 ∧ (_pack_char [1, 2, 3] 2).length = 2) ∧
    (_unpack_varchar (_pack_varchar [1, 2, 3] 2) 2 = [1, 2, 3].take (min 2 255) ∧
      (_pack_varchar [1, 2, 3] 2).length = 1 + 2) :=
  ⟨c1_round_trip.1
      [("id", Value.vint (-7)), ("name", Value.vstr [72, 73, 74, 75, 76]),
        ("loc", Value.vstr []), ("salary", Value.vfloat 0)] "Emp"
      [("Emp", [⟨"id", FieldType.fint⟩, ⟨"name", FieldType.fchar 5⟩,
        ⟨"loc", FieldType.fvarchar 7⟩, ⟨"salary", FieldType.ffloat⟩,
        ⟨"note", FieldType.fchar 3⟩])]
      [⟨"id", FieldType.fint⟩, ⟨"name", FieldType.fchar 5⟩,
        ⟨"loc", FieldType.fvarchar 7⟩, ⟨"salary", FieldType.ffloat⟩,
        ⟨"note", FieldType.fchar 3⟩] rfl (by decide),
    c1_round_trip.2.1 [1, 2, 3] 2 (by decide),
    c1_round_trip.2.2 [1, 2, 3] 2 (by decide)⟩

/-- Witness for C8 at a 3-byte string packed into `char(2)` and a decode
of `[7, 0, 0]`. -/
theorem c8_char_codec_witness :
    (_pack_char [72, 0, 73] 2).length = 2 ∧
    _pack_char [72, 0, 73] 2 =
      [72, 0, 73].take 2 ++ List.replicate (2 - ([72, 0, 73] : List Nat).length) 0 ∧
    (2 ≤ ([72, 0, 73] : List Nat).length → _pack_char [72, 0, 73] 2 = [72, 0, 73].take 2) ∧
    _unpack_char [7, 0, 0] = rstripZeros [7, 0, 0] ∧
    ([7, 0, 0] : List Nat) = _unpack_char [7, 0, 0] ++
      List.replicate (([7, 0, 0] : List Nat).length - (_unpack_char [7, 0, 0]).length) 0 ∧
    (_unpack_char [7, 0, 0]).getLast? ≠ some 0 :=
  c8_char_codec [72, 0, 73] [7, 0, 0] 2

/-! ### Claim theorems: insert_record error handling -/

/-- C6 as literally stated is false: a record of 4089 bytes exceeds the
4088-byte capacity of a fresh page, so the final
`insert_record_into_page` on the newly initialized page raises a
CapacityError that `insert_record` does not catch — the error surfaces to
the caller (modelled by `none`). -/
theorem c6_oversize_insert_raises :
    insert_record none (List.replicate 4089 0) = none := by
  have hfail : insert_record_into_page init_empty_page (List.replicate 4089 0) = none := by
    rw [insert_record_into_page_none_iff, free_space_init_empty_page,
      List.length_replicate]
    norm_num
  unfold insert_record
  dsimp only
  have hread : read_page init_empty_page 0 = init_empty_page := by
    unfold read_page
    rw [Nat.zero_mul, List.drop_zero]
    exact List.take_of_length_le (by rw [length_init_empty_page]; exact le_refl _)
  have hnp : init_empty_page.length / PAGE_SIZE = 1 := by
    rw [length_init_empty_page]
    rfl
  rw [hnp]
  simp only [tryPages, hread, hfail]

/-- C6 (amended): `insert_record` surfaces no CapacityError for any
record that fits an empty page (length at most 4088 bytes): insufficient
space in an existing page is handled by trying the next page and, when
none fits, by appending a fresh page.  (For a record longer than 4088
bytes the CapacityError of the final fresh-page insert does surface.) -/
theorem c6_insert_handles_capacity (fs : Option (List Nat)) (r : List Nat)
    (h : r.length ≤ 4088) : ∃ out, insert_record fs r = some out := by
  unfold insert_record
  dsimp only
  generalize (match fs with
    | none => init_empty_page
    | some d => if d.length = 0 then init_empty_page else d) = data
  cases htry : tryPages data r 0 (data.length / PAGE_SIZE) with
  | some out => exact ⟨out, rfl⟩
  | none =>
    cases hfresh : insert_record_into_page init_empty_page r with
    | none =>
      rw [insert_record_into_page_none_iff, free_space_init_empty_page] at hfresh
      exfalso
      omega
    | some v => exact ⟨_, rfl⟩

/-- Witness for C6 (amended) at an absent file and a 3-byte record. -/
theorem c6_insert_handles_capacity_witness :
    ∃ out, insert_record none [1, 2, 3] = some out :=
  c6_insert_handles_capacity none [1, 2, 3] (by decide)

/-! ### Claim theorems: scan of missing or empty files -/

/-- C10: scanning a heap file that does not exist, or whose file is
zero-length, returns the empty list without raising (no IOError is
possible since no page is read), so reading all structured records of a
never-inserted table yields the empty list. -/
theorem c10_scan_missing_file :
    get_all_raw_records none = [] ∧
    get_all_raw_records (some []) = [] ∧
    (∀ (t : String) (schema : List (String × List FieldDesc)) (fields : List FieldDesc),
      schema.lookup t = some fields →
      read_all_structured_records t schema none = some []) := by
  refine ⟨rfl, rfl, ?_⟩
  intro t schema fields hlook
  unfold read_all_structured_records
  rw [hlook]
  rfl

/-- Witness for C10 at a one-table schema. -/
theorem c10_scan_missing_file_witness :
    read_all_structured_records "T" [("T", [⟨"id", FieldType.fint⟩])] none = some [] :=
  c10_scan_missing_file.2.2 "T" [("T", [⟨"id", FieldType.fint⟩])]
    [⟨"id", FieldType.fint⟩] rfl

/-! ### tryPages: the first-fit page scan -/

theorem tryPages_found {data r : List Nat} : ∀ (n start p : Nat),
    start ≤ p → p < start + n →
    (∀ q, start ≤ q → q < p → insert_record_into_page (read_page data q) r = none) →
    ∀ {pg : List Nat} {s : Nat},
    insert_record_into_page (read_page data p) r = some (pg, s) →
    tryPages data r start n = some (write_page data p pg, p, s) := by
  intro n
  induction n with
  | zero => intro start p h1 h2 hnone pg s hp; omega
  | succ n ih =>
    intro start p h1 h2 hnone pg s hp
    simp only [tryPages]
    by_cases hsp : start = p
    · subst hsp
      rw [hp]
    · rw [hnone start (le_refl _) (by omega)]
      exact ih (start + 1) p (by omega) (by omega)
        (fun q hq1 hq2 => hnone q (by omega) hq2) hp

theorem tryPages_none {data r : List Nat} : ∀ (n start : Nat),
    (∀ q, start ≤ q → q < start + n →
      insert_record_into_page (read_page data q) r = none) →
    tryPages data r start n = none := by
  intro n
  induction n with
  | zero => intro start h; rfl
  | succ n ih =>
    intro start h
    simp only [tryPages]
    rw [h start (le_refl _) (by omega)]
    exact ih (start + 1) (fun q hq1 hq2 => h q (by omega) (by omega))

theorem tryPages_some_elim {data r : List Nat} : ∀ (n start : Nat)
    {d : List Nat} {p s : Nat},
    tryPages data r start n = some (d, p, s) →
    start ≤ p ∧ p < start + n ∧
    (∀ q, start ≤ q → q < p → insert_record_into_page (read_page data q) r = none) ∧
    ∃ pg, insert_record_into_page (read_page data p) r = some (pg, s) ∧
      d = write_page data p pg := by
  intro n
  induction n with
  | zero => intro start d p s h; exact Option.noConfusion h
  | succ n ih =>
    intro start d p s h
    simp only [tryPages] at h
    cases hins : insert_record_into_page (read_page data start) r with
    | some v =>
      obtain ⟨pg0, s0⟩ := v
      rw [hins] at h
      simp only [Option.some.injEq, Prod.mk.injEq] at h
      obtain ⟨hd, hp, hs⟩ := h
      subst hp
      subst hs
      exact ⟨le_refl _, by omega, fun q hq1 hq2 => by omega,
        ⟨pg0, hins, hd.symm⟩⟩
    | none =>
      rw [hins] at h
      obtain ⟨ha, hb, hc, hd⟩ := ih (start + 1) h
      refine ⟨by omega, by omega, ?_, hd⟩
      intro q hq1 hq2
      rcases Nat.eq_or_lt_of_le hq1 with heq | hlt
      · rw [← heq]
        exact hins
      · exact hc q (by omega) hq2

theorem tryPages_none_elim {data r : List Nat} : ∀ (n start : Nat),
    tryPages data r start n = none →
    ∀ q, start ≤ q → q < start + n →
    insert_record_into_page (read_page data q) r = none := by
  intro n
  induction n with
  | zero => intro start h q hq1 hq2; omega
  | succ n ih =>
    intro start h q hq1 hq2
    simp only [tryPages] at h
    cases hins : insert_record_into_page (read_page data start) r with
    | some v =>
      obtain ⟨pg0, s0⟩ := v
      rw [hins] at h
      exact Option.noConfusion h
    | none =>
      rw [hins] at h
      rcases Nat.eq_or_lt_of_le hq1 with heq | hlt
      · rw [← heq]
        exact hins
      · exact ih (start + 1) h q (by omega) (by omega)

/-! ### Claim theorems: first-fit insertion -/

/-- C3: `insert_record` scans the existing pages `0..count-1` in
ascending order and places the record in the first page whose free space
suffices, returning that page's number and writing only that page; only
when no existing page fits does it append one fresh page, inserting there
and returning the old page count as the page number (so in the scenario
"page 0 exactly full, page 1 has room" the record lands on page 1 and no
page 2 is created). -/
theorem c3_first_fit :
    (∀ (data r : List Nat) (np p : Nat),
      data.length = 4096 * np → p < np →
      (∀ q, q < p → free_space_in_page (read_page data q) < (r.length + 4 : Int)) →
      (r.length + 4 : Int) ≤ free_space_in_page (read_page data p) →
      ∃ pg s, insert_record_into_page (read_page data p) r = some (pg, s) ∧
        insert_record (some data) r = some (write_page data p pg, p, s)) ∧
    (∀ (data r : List Nat) (np : Nat),
      data.length = 4096 * np → 0 < np → r.length ≤ 4088 →
      (∀ q, q < np → free_space_in_page (read_page data q) < (r.length + 4 : Int)) →
      ∃ pg s, insert_record (some data) r = some (append_page data pg, np, s) ∧
        (append_page data pg).length = 4096 * (np + 1)) := by
  constructor
  · intro data r np p hlen hp hnofit hfit
    have hne : insert_record_into_page (read_page data p) r ≠ none := by
      rw [Ne, insert_record_into_page_none_iff]
      omega
    obtain ⟨⟨pg, s⟩, hins⟩ := Option.ne_none_iff_exists'.mp hne
    refine ⟨pg, s, hins, ?_⟩
    unfold insert_record
    dsimp only
    rw [if_neg (by rw [hlen]; omega)]
    have hnp : data.length / PAGE_SIZE = np := by
      rw [hlen]
      exact Nat.mul_div_cancel_left np (by norm_num)
    rw [hnp]
    rw [tryPages_found np 0 p (Nat.zero_le p) (by omega)
      (fun q hq1 hq2 => insert_record_into_page_none_iff.mpr (hnofit q hq2)) hins]
  · intro data r np hlen hnp hr hnofit
    have hfresh : insert_record_into_page init_empty_page r ≠ none := by
      rw [Ne, insert_record_into_page_none_iff, free_space_init_empty_page]
      intro hc
      omega
    obtain ⟨⟨pg, s⟩, hins⟩ := Option.ne_none_iff_exists'.mp hfresh
    have hpglen : pg.length = 4096 := by
      have hq := insert_record_into_page_success length_init_empty_page hins
      rw [hq.2.1]
      rfl
    refine ⟨pg, s, ?_, ?_⟩
    · unfold insert_record
      dsimp only
      rw [if_neg (by rw [hlen]; omega)]
      have hnpe : data.length / PAGE_SIZE = np := by
        rw [hlen]
        exact Nat.mul_div_cancel_left np (by norm_num)
      rw [hnpe]
      rw [tryPages_none np 0
        (fun q hq1 hq2 => insert_record_into_page_none_iff.mpr (hnofit q (by omega))),
        hins]
    · unfold append_page
      rw [List.length_append, hlen, hpglen]
      ring

/-- Witness for C3: page 0 (footer `slot_count = 0`, `free_offset = 4092`)
is exactly full; with an empty page 1 present the 3-byte record lands on
page 1, and with page 0 alone a fresh page is appended as page 1. -/
theorem c3_first_fit_witness :
    (∃ pg s,
      insert_record_into_page
        (read_page (write_footer (List.replicate 4096 0) 0 4092 ++ init_empty_page) 1)
        [9, 9, 9] = some (pg, s) ∧
      insert_record (some (write_footer (List.replicate 4096 0) 0 4092 ++ init_empty_page))
        [9, 9, 9] =
        some (write_page (write_footer (List.replicate 4096 0) 0 4092 ++ init_empty_page)
          1 pg, 1, s)) ∧
    (∃ pg s,
      insert_record (some (write_footer (List.replicate 4096 0) 0 4092)) [9, 9, 9] =
        some (append_page (write_footer (List.replicate 4096 0) 0 4092) pg, 1, s) ∧
      (append_page (write_footer (List.replicate 4096 0) 0 4092) pg).length =
        4096 * (1 + 1)) := by
  have hrl : (List.replicate 4096 (0 : Nat)).length = 4096 := List.length_replicate 4096 0
  have hpfLen : (write_footer (List.replicate 4096 0) 0 4092).length = 4096 :=
    length_write_footer hrl
  have hsc : slotCount (write_footer (List.replicate 4096 0) 0 4092) = 0 := by
    rw [slotCount_write_footer hrl]
  have hfo : freeOff (write_footer (List.replicate 4096 0) 0 4092) = 4092 := by
    rw [freeOff_write_footer hrl]
  have hfree0 : free_space_in_page (write_footer (List.replicate 4096 0) 0 4092) = 0 := by
    unfold free_space_in_page
    rw [hsc, hfo]
    norm_num [PAGE_SIZE, FOOTER_SIZE, SLOT_ENTRY_SIZE]
  have hpfPS : (write_footer (List.replicate 4096 0) 0 4092).length = PAGE_SIZE := hpfLen
  constructor
  · have hread0 : read_page (write_footer (List.replicate 4096 0) 0 4092 ++
        init_empty_page) 0 = write_footer (List.replicate 4096 0) 0 4092 := by
      unfold read_page
      rw [Nat.zero_mul, List.drop_zero]
      exact take_append_eq_self hpfPS
    have hread1 : read_page (write_footer (List.replicate 4096 0) 0 4092 ++
        init_empty_page) 1 = init_empty_page := by
      unfold read_page
      rw [Nat.one_mul, drop_append_eq _ hpfPS]
      exact List.take_of_length_le (le_of_eq length_init_empty_page)
    refine c3_first_fit.1 _ [9, 9, 9] 2 1 ?_ (by norm_num) ?_ ?_
    · rw [List.length_append, hpfLen, length_init_empty_page]
    · intro q hq
      have hq0 : q = 0 := by omega
      subst hq0
      rw [hread0, hfree0]
      norm_num
    · rw [hread1, free_space_init_empty_page]
      norm_num
  · have hread0 : read_page (write_footer (List.replicate 4096 0) 0 4092) 0 =
        write_footer (List.replicate 4096 0) 0 4092 := by
      unfold read_page
      rw [Nat.zero_mul, List.drop_zero]
      exact List.take_of_length_le (le_of_eq hpfPS)
    refine c3_first_fit.2 _ [9, 9, 9] 1 (by rw [hpfLen]) (by norm_num) (by norm_num) ?_
    intro q hq
    have hq0 : q = 0 := by omega
    subst hq0
    rw [hread0, hfree0]
    norm_num

/-! ### File-level abstraction: a heap file as a list of page images -/

theorem sumLens_append_all (a b : List (List Nat)) :
    sumLens (a ++ b) = sumLens a + sumLens b := by
  simp [sumLens]

theorem flatten_length_const {ps : List (List Nat)}
    (h : ∀ q ∈ ps, q.length = 4096) :
    ps.flatten.length = 4096 * ps.length := by
  induction ps with
  | nil => rfl
  | cons x xs ih =>
    simp only [List.flatten_cons, List.length_append, List.length_cons]
    rw [h x (List.mem_cons_self _ _), ih (fun q hq => h q (List.mem_cons_of_mem _ hq))]
    ring

theorem read_page_flatten {ps : List (List Nat)}
    (h : ∀ q ∈ ps, q.length = 4096) :
    ∀ p, p < ps.length → read_page ps.flatten p = ps.getD p [] := by
  induction ps with
  | nil => intro p hp; simp at hp
  | cons x xs ih =>
    intro p hp
    have hx : x.length = PAGE_SIZE := h x (List.mem_cons_self _ _)
    cases p with
    | zero =>
      unfold read_page
      rw [Nat.zero_mul, List.drop_zero, List.flatten_cons]
      rw [take_append_eq_self hx]
      rfl
    | succ p =>
      unfold read_page
      rw [List.flatten_cons,
        show (p + 1) * PAGE_SIZE = x.length + p * PAGE_SIZE by rw [hx]; ring,
        ← List.drop_drop, List.drop_left]
      simp only [List.length_cons] at hp
      have := ih (fun q hq => h q (List.mem_cons_of_mem _ hq)) p (by omega)
      unfold read_page at this
      rw [this]
      rfl

theorem write_page_flatten {ps : List (List Nat)} {pg : List Nat}
    (h : ∀ q ∈ ps, q.length = 4096) :
    ∀ p, p < ps.length → write_page ps.flatten p pg = (ps.set p pg).flatten := by
  induction ps with
  | nil => intro p hp; simp at hp
  | cons x xs ih =>
    intro p hp
    have hx : x.length = PAGE_SIZE := h x (List.mem_cons_self _ _)
    cases p with
    | zero =>
      unfold write_page
      rw [Nat.zero_mul, List.take_zero, List.flatten_cons, Nat.zero_add,
        drop_append_eq _ hx]
      simp
    | succ p =>
      unfold write_page
      rw [List.flatten_cons,
        show (p + 1) * PAGE_SIZE = x.length + p * PAGE_SIZE by rw [hx]; ring,
        List.take_append,
        show x.length + p * PAGE_SIZE + PAGE_SIZE = x.length + (p * PAGE_SIZE + PAGE_SIZE)
          by ring,
        ← List.drop_drop, List.drop_left]
      simp only [List.length_cons] at hp
      have := ih (fun q hq => h q (List.mem_cons_of_mem _ hq)) p (by omega)
      unfold write_page at this
      rw [List.append_assoc, List.append_assoc, ← List.append_assoc (List.take _ _), this]
      simp [List.set_cons_succ]

theorem getD_set_self {α : Type} {l : List α} {i : Nat} {x d : α} (h : i < l.length) :
    (l.set i x).getD i d = x := by
  simp [List.getD_eq_getElem?_getD, List.getElem?_set_self h]

theorem getD_set_ne {α : Type} {l : List α} {i j : Nat} {x d : α} (h : i ≠ j) :
    (l.set i x).getD j d = l.getD j d := by
  simp [List.getD_eq_getElem?_getD, List.getElem?_set_ne h]

theorem map_getD_range {α : Type} (l : List α) (d : α) :
    (List.range l.length).map (fun i => l.getD i d) = l := by
  induction l with
  | nil => rfl
  | cons x xs ih =>
    rw [List.length_cons, List.range_succ_eq_map, List.map_cons, List.map_map]
    have htail : (List.range xs.length).map ((fun i => (x :: xs).getD i d) ∘ Nat.succ) =
        (List.range xs.length).map (fun i => xs.getD i d) :=
      List.map_congr_left (fun a ha => rfl)
    rw [htail, ih]
    rfl

theorem FileRep_page_lengths {data : List Nat} {ps : List (List Nat)}
    {pages : List (List (List Nat))} (hrep : FileRep data ps pages) :
    ∀ q ∈ ps, q.length = 4096 := by
  obtain ⟨hdata, hlen, hpages⟩ := hrep
  intro q hq
  obtain ⟨i, hi, hqi⟩ := List.mem_iff_getElem.mp hq
  have hrep := (hpages i (by omega)).1
  rw [List.getD_eq_getElem ps [] hi, hqi] at hrep
  rw [hrep]
  rfl

theorem insert_record_FileRep {data r : List Nat} {ps : List (List Nat)}
    {pages : List (List (List Nat))}
    (hrep : FileRep data ps pages) (hr : r.length ≤ 4088) (hne : pages ≠ []) :
    ∃ d2 p s ps2 pages2, insert_record (some data) r = some (d2, p, s) ∧
      FileRep d2 ps2 pages2 ∧
      ((∃ p0, p0 < pages.length ∧
          pages2 = pages.set p0 (pages.getD p0 [] ++ [r])) ∨
        pages2 = pages ++ [[r]]) := by
  have hall := FileRep_page_lengths hrep
  obtain ⟨hdata, hlen, hpages⟩ := hrep
  have hdlen : data.length = 4096 * pages.length := by
    rw [hdata, flatten_length_const hall, hlen]
  have hpos : 0 < pages.length := List.length_pos.mpr hne
  have hnp : data.length / PAGE_SIZE = pages.length := by
    rw [hdlen]
    exact Nat.mul_div_cancel_left _ (by norm_num)
  unfold insert_record
  dsimp only
  rw [if_neg (by rw [hdlen]; omega), hnp]
  cases htry : tryPages data r 0 pages.length with
  | some out =>
    obtain ⟨d, p, s⟩ := out
    obtain ⟨-, hplt, -, pg, hins, hd⟩ := tryPages_some_elim pages.length 0 htry
    rw [Nat.zero_add] at hplt
    have hread : read_page data p = ps.getD p [] := by
      rw [hdata]
      exact read_page_flatten hall p (by omega)
    rw [hread] at hins
    obtain ⟨hstep, hslot⟩ := PageRep_step (hpages p hplt) hins
    refine ⟨d, p, s, ps.set p pg, pages.set p (pages.getD p [] ++ [r]), rfl, ?_, ?_⟩
    · refine ⟨?_, ?_, ?_⟩
      · rw [hd, hdata]
        exact write_page_flatten hall p (by omega)
      · rw [List.length_set, List.length_set, hlen]
      · intro i hi
        rw [List.length_set] at hi
        by_cases hip : i = p
        · subst hip
          rw [getD_set_self (by omega), getD_set_self (by omega)]
          exact hstep
        · rw [getD_set_ne (fun hc => hip hc.symm), getD_set_ne (fun hc => hip hc.symm)]
          exact hpages i hi
    · exact Or.inl ⟨p, hplt, rfl⟩
  | none =>
    have hfresh : insert_record_into_page init_empty_page r ≠ none := by
      rw [Ne, insert_record_into_page_none_iff, free_space_init_empty_page]
      intro hc
      omega
    obtain ⟨⟨pg, s⟩, hins⟩ := Option.ne_none_iff_exists'.mp hfresh
    obtain ⟨hstep, hslot⟩ := PageRep_step PageRep_init hins
    rw [hins]
    refine ⟨_, pages.length, s, ps ++ [pg], pages ++ [[r]], rfl, ?_, Or.inr rfl⟩
    refine ⟨?_, ?_, ?_⟩
    · unfold append_page
      rw [hdata, List.flatten_append, List.flatten_cons, List.flatten_nil,
        List.append_nil]
    · rw [List.length_append, List.length_append, hlen]
      rfl
    · intro i hi
      rw [List.length_append, List.length_cons, List.length_nil] at hi
      by_cases hip : i < pages.length
      · rw [getD_append_lt (by omega), getD_append_lt hip]
        exact hpages i hip
      · have hieq : i = pages.length := by omega
        subst hieq
        have h1 : (ps ++ [pg]).getD pages.length [] = pg := by
          rw [getD_append_ge (le_of_eq hlen), hlen, Nat.sub_self]
          rfl
        have h2 : (pages ++ [[r]]).getD pages.length [] = [r] := by
          rw [getD_append_ge (le_refl _), Nat.sub_self]
          rfl
        rw [h1, h2]
        simpa using hstep

theorem flatten_set_append {r : List Nat} :
    ∀ (pages : List (List (List Nat))) (p : Nat), p < pages.length →
    (pages.set p (pages.getD p [] ++ [r])).flatten.Perm (pages.flatten ++ [r]) := by
  intro pages
  induction pages with
  | nil => intro p hp; simp at hp
  | cons x xs ih =>
    intro p hp
    cases p with
    | zero =>
      simp only [List.set_cons_zero, List.getD_cons_zero, List.flatten_cons]
      rw [List.append_assoc, List.append_assoc]
      exact List.perm_append_comm.append_left x
    | succ p =>
      simp only [List.set_cons_succ, List.getD_cons_succ, List.flatten_cons,
        List.length_cons] at hp ⊢
      rw [List.append_assoc]
      exact (ih p (by omega)).append_left x

theorem insert_record_HeapInv {fs : Option (List Nat)}
    {pages : List (List (List Nat))} {r : List Nat}
    (hinv : HeapInv fs pages) (hr : r.length ≤ 4088) :
    ∃ d p s pages2, insert_record fs r = some (d, p, s) ∧
      HeapInv (some d) pages2 ∧ pages2.flatten.Perm (pages.flatten ++ [r]) := by
  have hfirst : ∀ fs0 : Option (List Nat), fs0 = none ∨ fs0 = some [] →
      ∃ d pages2, insert_record fs0 r = some (d, 0, 0) ∧
        HeapInv (some d) pages2 ∧ pages2.flatten.Perm [r] := by
    intro fs0 h0
    have hfresh : insert_record_into_page init_empty_page r ≠ none := by
      rw [Ne, insert_record_into_page_none_iff, free_space_init_empty_page]
      intro hc
      omega
    obtain ⟨⟨pg, s⟩, hins⟩ := Option.ne_none_iff_exists'.mp hfresh
    obtain ⟨hstep, hslot⟩ := PageRep_step PageRep_init hins
    have hslot0 : s = 0 := by simpa using hslot
    subst hslot0
    have hread : read_page init_empty_page 0 = init_empty_page := by
      unfold read_page
      rw [Nat.zero_mul, List.drop_zero]
      exact List.take_of_length_le (le_of_eq length_init_empty_page)
    have hwp : write_page init_empty_page 0 pg = pg := by
      unfold write_page
      rw [Nat.zero_mul, List.take_zero, List.nil_append, Nat.zero_add,
        show PAGE_SIZE = init_empty_page.length from length_init_empty_page.symm,
        List.drop_length, List.append_nil]
    have hcore : tryPages init_empty_page r 0 1 =
        some (write_page init_empty_page 0 pg, 0, 0) :=
      tryPages_found 1 0 0 (le_refl _) (by omega) (fun q hq1 hq2 => by omega)
        (by rw [hread]; exact hins)
    have hrun : insert_record fs0 r = some (pg, 0, 0) := by
      rcases h0 with h0 | h0 <;> subst h0
      · unfold insert_record
        dsimp only
        rw [show init_empty_page.length / PAGE_SIZE = 1 by
          rw [length_init_empty_page]; rfl, hcore, hwp]
      · unfold insert_record
        dsimp only
        rw [show (if ([] : List Nat).length = 0 then init_empty_page else ([] : List Nat)) =
          init_empty_page from rfl,
          show init_empty_page.length / PAGE_SIZE = 1 by
            rw [length_init_empty_page]; rfl, hcore, hwp]
    refine ⟨pg, [[r]], hrun, ?_, by simp⟩
    refine Or.inr ⟨⟨pg, [pg], rfl, ?_⟩, by simp, by simp⟩
    refine ⟨by simp, rfl, ?_⟩
    intro i hi
    simp only [List.length_cons, List.length_nil] at hi
    have hi0 : i = 0 := by omega
    subst hi0
    simpa using hstep
  rcases hinv with ⟨hpages, h0⟩ | ⟨⟨data, ps, hfs, hrep⟩, hne, hnonempty⟩
  · subst hpages
    obtain ⟨d, pages2, hrun, hinv2, hperm⟩ := hfirst fs h0
    exact ⟨d, 0, 0, pages2, hrun, hinv2, by simpa using hperm⟩
  · subst hfs
    obtain ⟨d2, p, s, ps2, pages2, hrun, hrep2, hshape⟩ :=
      insert_record_FileRep hrep hr hne
    refine ⟨d2, p, s, pages2, hrun, ?_, ?_⟩
    · refine Or.inr ⟨⟨d2, ps2, rfl, hrep2⟩, ?_, ?_⟩
      · rcases hshape with ⟨p0, hp0, hpg2⟩ | hpg2 <;> subst hpg2
        · intro hc
          have := congrArg List.length hc
          simp only [List.length_set] at this
          exact hne (List.length_eq_zero.mp this)
        · intro hc
          have := congrArg List.length hc
          simp at this
      · rcases hshape with ⟨p0, hp0, hpg2⟩ | hpg2 <;> subst hpg2
        · intro pg hpg
          rcases List.mem_or_eq_of_mem_set hpg with hmem | heq
          · exact hnonempty pg hmem
          · subst heq
            simp
        · intro pg hpg
          rcases List.mem_append.mp hpg with hmem | heq
          · exact hnonempty pg hmem
          · simp only [List.mem_cons, List.not_mem_nil, or_false] at heq
            subst heq
            simp
    · rcases hshape with ⟨p0, hp0, hpg2⟩ | hpg2 <;> subst hpg2
      · exact flatten_set_append pages p0 hp0
      · rw [List.flatten_append]
        simp

theorem insertAll_HeapInv {rs : List (List Nat)} :
    ∀ {fs : Option (List Nat)} {pages : List (List (List Nat))},
    HeapInv fs pages → (∀ x ∈ rs, x.length ≤ 4088) →
    ∃ fs2 pages2, insertAll fs rs = some fs2 ∧ HeapInv fs2 pages2 ∧
      pages2.flatten.Perm (pages.flatten ++ rs) := by
  induction rs with
  | nil =>
    intro fs pages hinv hr
    exact ⟨fs, pages, rfl, hinv, by simp⟩
  | cons r rest ih =>
    intro fs pages hinv hr
    obtain ⟨d, p, s, pages2, hrun, hinv2, hperm⟩ :=
      insert_record_HeapInv hinv (hr r (List.mem_cons_self _ _))
    obtain ⟨fs3, pages3, hrun3, hinv3, hperm3⟩ :=
      ih hinv2 (fun x hx => hr x (List.mem_cons_of_mem _ hx))
    refine ⟨fs3, pages3, ?_, hinv3, ?_⟩
    · simp only [insertAll, hrun]
      exact hrun3
    · refine hperm3.trans ?_
      refine (hperm.append_right rest).trans ?_
      rw [List.append_assoc]
      exact List.Perm.refl _

theorem scan_of_HeapInv {fs : Option (List Nat)} {pages : List (List (List Nat))}
    (hinv : HeapInv fs pages) :
    get_all_raw_records fs = scanAbs pages := by
  rcases hinv with ⟨hpages, h0⟩ | ⟨⟨data, ps, hfs, hrep⟩, hne, -⟩
  · subst hpages
    rcases h0 with h0 | h0 <;> subst h0 <;> rfl
  · subst hfs
    have hall := FileRep_page_lengths hrep
    obtain ⟨hdata, hlen, hpages⟩ := hrep
    have hdlen : data.length = 4096 * pages.length := by
      rw [hdata, flatten_length_const hall, hlen]
    have hpos : 0 < pages.length := List.length_pos.mpr hne
    have hnp : data.length / PAGE_SIZE = pages.length := by
      rw [hdlen]
      exact Nat.mul_div_cancel_left _ (by norm_num)
    unfold get_all_raw_records
    dsimp only
    rw [if_neg (by rw [hdlen]; omega), hnp]
    unfold scanAbs
    congr 1
    refine List.map_congr_left (fun p hp => ?_)
    have hplt : p < pages.length := List.mem_range.mp hp
    have hread : read_page data p = ps.getD p [] := by
      rw [hdata]
      exact read_page_flatten hall p (by omega)
    obtain ⟨hpl, hsc, hfo, hcap, hslots, hrecs⟩ := hpages p hplt
    unfold pageTriples
    rw [hread, hsc]
    refine List.map_congr_left (fun si hsi => ?_)
    have hsilt : si < (pages.getD p []).length := List.mem_range.mp hsi
    rw [hrecs si hsilt]

theorem scanAbs_records (pages : List (List (List Nat))) :
    (scanAbs pages).map (fun x => x.2.2) = pages.flatten := by
  unfold scanAbs
  rw [List.map_flatten, List.map_map]
  have h1 : ((List.range pages.length).map
      (List.map (fun x => x.2.2) ∘ fun p => (List.range (pages.getD p []).length).map
        (fun si => (p, si, (pages.getD p []).getD si [])))) =
      (List.range pages.length).map (fun p => pages.getD p []) := by
    refine List.map_congr_left (fun p hp => ?_)
    simp only [Function.comp_apply, List.map_map]
    have h2 : ((fun x => x.2.2) ∘ fun si => ((p, si, (pages.getD p []).getD si []) :
        Nat × Nat × List Nat)) = fun si => (pages.getD p []).getD si [] := rfl
    rw [h2]
    exact map_getD_range (pages.getD p []) []
  rw [h1, map_getD_range pages []]

theorem scanAbs_sorted (pages : List (List (List Nat))) :
    List.Pairwise keyLt (scanAbs pages) := by
  unfold scanAbs
  rw [List.pairwise_flatten]
  constructor
  · intro l hl
    obtain ⟨p, hp, rfl⟩ := List.mem_map.mp hl
    rw [List.pairwise_map]
    refine List.Pairwise.imp ?_ (List.pairwise_lt_range _)
    intro a b hab
    exact Or.inr ⟨rfl, hab⟩
  · rw [List.pairwise_map]
    refine List.Pairwise.imp ?_ (List.pairwise_lt_range _)
    intro a b hab x hx y hy
    obtain ⟨sa, hsa, rfl⟩ := List.mem_map.mp hx
    obtain ⟨sb, hsb, rfl⟩ := List.mem_map.mp hy
    exact Or.inl hab

theorem sumLens_flatten_le {pages : List (List (List Nat))}
    (h : ∀ pg ∈ pages, sumLens pg ≤ 4088) :
    sumLens pages.flatten ≤ 4088 * pages.length := by
  induction pages with
  | nil => simp [sumLens]
  | cons x xs ih =>
    rw [List.flatten_cons, sumLens_append_all, List.length_cons]
    have h1 := h x (List.mem_cons_self _ _)
    have h2 := ih (fun pg hpg => h pg (List.mem_cons_of_mem _ hpg))
    nlinarith

theorem HeapInv_page_bound {fs : Option (List Nat)} {pages : List (List (List Nat))}
    (hinv : HeapInv fs pages) : ∀ pg ∈ pages, sumLens pg ≤ 4088 := by
  rcases hinv with ⟨hpages, -⟩ | ⟨⟨data, ps, hfs, hrep⟩, -, hnonempty⟩
  · subst hpages
    intro pg hpg
    simp at hpg
  · obtain ⟨hdata, hlen, hpages⟩ := hrep
    intro pg hpg
    obtain ⟨i, hi, hpgi⟩ := List.mem_iff_getElem.mp hpg
    have hrepi := hpages i hi
    rw [List.getD_eq_getElem pages [] hi, hpgi] at hrepi
    have hcap := hrepi.2.2.2.1
    have hnon : pg ≠ [] := hnonempty pg hpg
    have hpos : 0 < pg.length := List.length_pos.mpr hnon
    omega

theorem HeapInv_numPages {fs : Option (List Nat)} {pages : List (List (List Nat))}
    (hinv : HeapInv fs pages) : numPagesOf fs = pages.length := by
  rcases hinv with ⟨hpages, h0⟩ | ⟨⟨data, ps, hfs, hrep⟩, hne, -⟩
  · subst hpages
    rcases h0 with h0 | h0 <;> subst h0 <;> rfl
  · subst hfs
    have hall := FileRep_page_lengths hrep
    obtain ⟨hdata, hlen, -⟩ := hrep
    unfold numPagesOf
    dsimp only
    rw [hdata, flatten_length_const hall, hlen]
    exact Nat.mul_div_cancel_left _ (by norm_num)

/-! ### Claim theorems: insert-then-scan -/

/-- C2: inserting any sequence of records (each at most the 4088-byte
empty-page capacity) into an initially absent or empty heap file and then
scanning returns exactly those records — the returned byte strings are a
permutation of the inserted ones, each exactly once — with the
`(page_number, slot_index)` keys strictly increasing in page-then-slot
order (every page visited in ascending order, every slot in index order);
the file spans at least `⌈total_bytes / 4088⌉` pages, where 4088 bytes is
the record capacity of one page. -/
theorem c2_insert_then_scan_all (fs0 : Option (List Nat)) (rs : List (List Nat))
    (h0 : fs0 = none ∨ fs0 = some [])
    (hr : ∀ x ∈ rs, x.length ≤ 4088) :
    ∃ fsOut, insertAll fs0 rs = some fsOut ∧
      ((get_all_raw_records fsOut).map (fun x => x.2.2)).Perm rs ∧
      List.Pairwise keyLt (get_all_raw_records fsOut) ∧
      sumLens rs ≤ 4088 * numPagesOf fsOut ∧
      (sumLens rs + 4087) / 4088 ≤ numPagesOf fsOut := by
  have hinv0 : HeapInv fs0 [] := Or.inl ⟨rfl, h0⟩
  obtain ⟨fs2, pages2, hrun, hinv2, hperm⟩ := insertAll_HeapInv hinv0 hr
  have hscan := scan_of_HeapInv hinv2
  have hperm2 : pages2.flatten.Perm rs := by simpa using hperm
  have hsum : sumLens pages2.flatten = sumLens rs := by
    unfold sumLens
    exact (hperm2.map List.length).sum_eq
  have hbound : sumLens rs ≤ 4088 * numPagesOf fs2 := by
    rw [HeapInv_numPages hinv2, ← hsum]
    exact sumLens_flatten_le (HeapInv_page_bound hinv2)
  refine ⟨fs2, hrun, ?_, ?_, hbound, by omega⟩
  · rw [hscan, scanAbs_records]
    exact hperm2
  · rw [hscan]
    exact scanAbs_sorted pages2

/-- Witness for C2: two records inserted into an absent file. -/
theorem c2_insert_then_scan_all_witness :
    ∃ fsOut, insertAll none [[1, 2], [3]] = some fsOut ∧
      ((get_all_raw_records fsOut).map (fun x => x.2.2)).Perm [[1, 2], [3]] ∧
      List.Pairwise keyLt (get_all_raw_records fsOut) ∧
      sumLens [[1, 2], [3]] ≤ 4088 * numPagesOf fsOut ∧
      (sumLens [[1, 2], [3]] + 4087) / 4088 ≤ numPagesOf fsOut :=
  c2_insert_then_scan_all none [[1, 2], [3]] (Or.inl rfl) (by decide)
